import Mathlib

/-!
# Verification of the smart-fridge core against its specification

Shallow embedding of the repository's core components:

* `Inventory`          — `src/inventory/inventory_manager.py` (`InventoryManager`)
* `ImageComp`          — `src/ai/image_comparator.py` (`ImageComparator`, `ChangeRegion`)
* `FacialRecognition`  — `src/ai/facial_recognition.py` (`FacialRecognitionManager`, `User`)

Python dicts are modelled as association lists with insertion-order
semantics (`dictLookup` finds the first binding, `dictInsert` replaces in
place or appends, `dictErase` removes the binding); Python ints are `ℤ`,
floats are `ℚ`, ISO timestamps are `ℕ` (a day count; `datetime.now()`
becomes an explicit `now` argument).  External library calls (OpenCV,
`face_recognition`, the Nutritionix HTTP API) are taken as parameters of
the embedded functions; everything written in the repository itself is
translated directly.
-/

/-! ## Association-list model of Python dicts -/

/-- First binding of `key`, like Python `d[key]`/`key in d`. -/
def dictLookup {κ α : Type} [DecidableEq κ] : List (κ × α) → κ → Option α
  | [], _ => none
  | (k, v) :: rest, key => if k = key then some v else dictLookup rest key

/-- `d[key] = val`: replace the first binding in place, else append (Python
dict assignment preserves insertion order). -/
def dictInsert {κ α : Type} [DecidableEq κ] : List (κ × α) → κ → α → List (κ × α)
  | [], key, val => [(key, val)]
  | (k, v) :: rest, key, val =>
    if k = key then (k, val) :: rest else (k, v) :: dictInsert rest key val

/-- `del d[key]`: drop the first binding of `key`. -/
def dictErase {κ α : Type} [DecidableEq κ] : List (κ × α) → κ → List (κ × α)
  | [], _ => []
  | (k, v) :: rest, key => if k = key then rest else (k, v) :: dictErase rest key

theorem dictLookup_insert_self {κ α : Type} [DecidableEq κ] (d : List (κ × α)) (k : κ) (v : α) :
    dictLookup (dictInsert d k v) k = some v := by
  induction d with
  | nil => simp [dictInsert, dictLookup]
  | cons p rest ih =>
    obtain ⟨k', v'⟩ := p
    by_cases h : k' = k
    · simp [dictInsert, dictLookup, h]
    · simp [dictInsert, dictLookup, h, ih]

theorem dictLookup_insert_ne {κ α : Type} [DecidableEq κ] (d : List (κ × α)) (k k' : κ) (v : α)
    (h : k' ≠ k) : dictLookup (dictInsert d k v) k' = dictLookup d k' := by
  induction d with
  | nil => simp [dictInsert, dictLookup, Ne.symm h]
  | cons p rest ih =>
    obtain ⟨k0, v0⟩ := p
    by_cases h0 : k0 = k
    · subst h0
      simp [dictInsert, dictLookup, Ne.symm h]
    · by_cases h1 : k0 = k'
      · simp [dictInsert, dictLookup, h0, h1, h]
      · simp [dictInsert, dictLookup, h0, h1, ih]

theorem dictLookup_erase_ne {κ α : Type} [DecidableEq κ] (d : List (κ × α)) (k k' : κ)
    (h : k' ≠ k) : dictLookup (dictErase d k) k' = dictLookup d k' := by
  induction d with
  | nil => simp [dictErase]
  | cons p rest ih =>
    obtain ⟨k0, v0⟩ := p
    by_cases h0 : k0 = k
    · subst h0
      simp [dictErase, dictLookup, Ne.symm h]
    · by_cases h1 : k0 = k'
      · simp [dictErase, dictLookup, h0, h1, h]
      · simp [dictErase, dictLookup, h0, h1, ih]

theorem dictLookup_eq_none_of_not_mem_keys {κ α : Type} [DecidableEq κ] {k : κ} :
    ∀ (d : List (κ × α)), k ∉ d.map Prod.fst → dictLookup d k = none
  | [], _ => rfl
  | (k0, _) :: rest, h => by
    have h1 : ¬ k0 = k := fun e => h (by simp [e])
    have h2 : k ∉ rest.map Prod.fst := fun hm => h (by simp [hm])
    simp [dictLookup, h1, dictLookup_eq_none_of_not_mem_keys rest h2]

theorem dictLookup_erase_self {κ α : Type} [DecidableEq κ] (d : List (κ × α)) (k : κ)
    (hnd : (d.map Prod.fst).Nodup) : dictLookup (dictErase d k) k = none := by
  induction d with
  | nil => simp [dictErase, dictLookup]
  | cons p rest ih =>
    obtain ⟨k0, v0⟩ := p
    simp only [List.map_cons, List.nodup_cons] at hnd
    by_cases h0 : k0 = k
    · subst h0
      simp only [dictErase, if_pos rfl]
      exact dictLookup_eq_none_of_not_mem_keys rest hnd.1
    · simp [dictErase, dictLookup, h0, ih hnd.2]

theorem mem_dictInsert {κ α : Type} [DecidableEq κ] {d : List (κ × α)} {k : κ} {v : α}
    {x : κ × α} (hx : x ∈ dictInsert d k v) : x ∈ d ∨ x = (k, v) := by
  induction d with
  | nil =>
    simp only [dictInsert, List.mem_singleton] at hx
    exact Or.inr hx
  | cons p rest ih =>
    obtain ⟨k0, v0⟩ := p
    by_cases h0 : k0 = k
    · subst h0
      simp only [dictInsert, if_pos, List.mem_cons] at hx
      rcases hx with hc | hc
      · exact Or.inr hc
      · exact Or.inl (List.mem_cons_of_mem _ hc)
    · simp only [dictInsert, if_neg h0, List.mem_cons] at hx
      rcases hx with h | h
      · exact Or.inl (by simp [h])
      · rcases ih h with h' | h'
        · exact Or.inl (List.mem_cons_of_mem _ h')
        · exact Or.inr h'

theorem mem_dictErase {κ α : Type} [DecidableEq κ] {d : List (κ × α)} {k : κ}
    {x : κ × α} (hx : x ∈ dictErase d k) : x ∈ d := by
  induction d with
  | nil => simp [dictErase] at hx
  | cons p rest ih =>
    obtain ⟨k0, v0⟩ := p
    by_cases h0 : k0 = k
    · subst h0
      simp only [dictErase, if_pos rfl] at hx
      exact List.mem_cons_of_mem _ hx
    · simp only [dictErase, if_neg h0, List.mem_cons] at hx
      rcases hx with h | h
      · simp [h]
      · exact List.mem_cons_of_mem _ (ih h)

theorem dictLookup_mem {κ α : Type} [DecidableEq κ] {d : List (κ × α)} {k : κ} {v : α}
    (h : dictLookup d k = some v) : (k, v) ∈ d := by
  induction d with
  | nil => simp [dictLookup] at h
  | cons p rest ih =>
    obtain ⟨k0, v0⟩ := p
    by_cases h0 : k0 = k
    · subst h0
      simp [dictLookup] at h
      simp [h]
    · simp only [dictLookup, if_neg h0] at h
      exact List.mem_cons_of_mem _ (ih h)

theorem nodup_keys_dictInsert {κ α : Type} [DecidableEq κ] (d : List (κ × α)) (k : κ) (v : α)
    (hnd : (d.map Prod.fst).Nodup) : ((dictInsert d k v).map Prod.fst).Nodup := by
  induction d with
  | nil => simp [dictInsert]
  | cons p rest ih =>
    obtain ⟨k0, v0⟩ := p
    simp only [List.map_cons, List.nodup_cons] at hnd
    by_cases h0 : k0 = k
    · subst h0
      simpa [dictInsert] using hnd
    · simp only [dictInsert, if_neg h0, List.map_cons, List.nodup_cons]
      refine ⟨fun hm => ?_, ih hnd.2⟩
      -- keys of `dictInsert rest k v` are keys of `rest` plus possibly `k`
      have : ∀ (l : List (κ × α)), k0 ∈ (dictInsert l k v).map Prod.fst →
          k0 ∈ l.map Prod.fst ∨ k0 = k := by
        intro l hl
        simp only [List.mem_map] at hl
        obtain ⟨x, hx, hfst⟩ := hl
        rcases mem_dictInsert hx with h' | h'
        · exact Or.inl (List.mem_map.mpr ⟨x, h', hfst⟩)
        · right; rw [h'] at hfst; exact hfst.symm
      rcases this rest hm with h' | h'
      · exact hnd.1 h'
      · exact h0 h'

theorem nodup_keys_dictErase {κ α : Type} [DecidableEq κ] (d : List (κ × α)) (k : κ)
    (hnd : (d.map Prod.fst).Nodup) : ((dictErase d k).map Prod.fst).Nodup := by
  induction d with
  | nil => simp [dictErase]
  | cons p rest ih =>
    obtain ⟨k0, v0⟩ := p
    simp only [List.map_cons, List.nodup_cons] at hnd
    by_cases h0 : k0 = k
    · subst h0
      simpa [dictErase] using hnd.2
    · simp only [dictErase, if_neg h0, List.map_cons, List.nodup_cons]
      refine ⟨fun hm => ?_, ih hnd.2⟩
      have : k0 ∈ rest.map Prod.fst := by
        simp only [List.mem_map] at hm ⊢
        obtain ⟨x, hx, hfst⟩ := hm
        exact ⟨x, mem_dictErase hx, hfst⟩
      exact hnd.1 this

/-! ## Inventory manager (`src/inventory/inventory_manager.py`)

`InventoryManager.inventories` is a dict mapping `str(user_id)` to a dict
mapping item names to per-item record dicts.  We model user ids and item
names as `String`, quantities as `ℤ` (Python ints), timestamps as a `ℕ`
day count (`datetime.now()` becomes an explicit `now` argument and
`timedelta(days=d)` adds `d`), and the Nutritionix response payload as an
opaque `String` (the inventory code never inspects it).  The external
HTTP call `fetch_nutritional_info` is a parameter `fetchNut`; file I/O
(`save_inventory`) has no effect on the in-memory state and is dropped. -/

namespace Inventory

/-- Opaque payload of `fetch_nutritional_info` (external Nutritionix API). -/
abbrev NutInfo := String

/-- One value of the per-item record dict built in `add_item`. -/
structure Record where
  quantity : ℤ
  expiry_date : ℕ
  added_date : ℕ
  last_detected : ℕ
  category : String
  portion_size : Option ℚ
  nutritional_info : Option NutInfo
deriving DecidableEq

/-- One element of the `detected_items` argument of `update_from_detection`:
a dict with key `class` and optional keys `portion_size`, `nutritional_info`
(`none` models an absent key). -/
structure Detection where
  class_label : String
  portion_size : Option ℚ
  nutritional_info : Option NutInfo
deriving DecidableEq

/-- A user's item dict. -/
abbrev ItemDict := List (String × Record)

/-- `self.inventories`. -/
abbrev Inventories := List (String × ItemDict)

/-- `self.categories` from `InventoryManager.__init__`. -/
def categories : List (String × List String) :=
  [("fruits", ["apple", "banana", "orange", "grape", "strawberry", "blueberry"]),
   ("vegetables", ["carrot", "tomato", "cucumber", "lettuce", "broccoli", "pepper"]),
   ("dairy", ["milk", "cheese", "yogurt", "butter", "cream"]),
   ("grains", ["bread", "rice", "pasta", "cereal", "oats"]),
   ("protein", ["chicken", "beef", "fish", "eggs", "tofu", "beans"]),
   ("beverages", ["water", "juice", "soda", "coffee", "tea"]),
   ("non_food", ["bowl", "plate", "utensil", "container"]),
   ("other", [])]

/-- `self.expiration_database` from `InventoryManager.__init__` (days). -/
def expiration_database : List (String × ℕ) :=
  [("milk", 7), ("bread", 5), ("eggs", 21), ("cheese", 14), ("apple", 14), ("banana", 5)]

/-- Python `str.lower()`, written over the character list so that the
kernel can evaluate it (`String.toLower` is stuck in kernel reduction). -/
def pyLower (s : String) : String := ⟨s.data.map Char.toLower⟩

/-- `InventoryManager.get_category`: first category whose item list contains
the lowercased name, else `"other"`. -/
def get_category (item : String) : String :=
  match categories.find? (fun p => decide (pyLower item ∈ p.2)) with
  | some p => p.1
  | none => "other"

/-- `InventoryManager.get_default_expiry`: now plus the item's shelf-life in
days (default 7 days when the item is not in the table). -/
def get_default_expiry (now : ℕ) (item_name : String) : ℕ :=
  now + ((dictLookup expiration_database (pyLower item_name)).getD 7)

/-- The fresh record dict built in the new-item branch of `add_item`. -/
def add_item_new_record (fetchNut : String → Option NutInfo) (now : ℕ)
    (item_name : String) (quantity : ℤ) (expiry_date : Option ℕ)
    (portion_size : Option ℚ) (nutritional_info : Option NutInfo) : Record :=
  { quantity := quantity
    expiry_date := expiry_date.getD (get_default_expiry now item_name)
    added_date := now
    last_detected := now
    category := get_category item_name
    portion_size := portion_size
    nutritional_info := match nutritional_info with
      | none => fetchNut item_name
      | some n => some n }

/-- The in-place update of an existing record in the else-branch of
`add_item`.  Python truthiness: `if portion_size:` is false for `None` and
for `0`; `if nutritional_info:` is modelled as presence of the payload. -/
def add_item_bump (now : ℕ) (r : Record) (quantity : ℤ)
    (portion_size : Option ℚ) (nutritional_info : Option NutInfo) : Record :=
  let r1 := { r with quantity := r.quantity + quantity, last_detected := now }
  let r2 := match portion_size with
    | some p => if p ≠ 0 then { r1 with portion_size := some p } else r1
    | none => r1
  match nutritional_info with
  | some n => { r2 with nutritional_info := some n }
  | none => r2

/-- `InventoryManager.add_item`.  `fetchNut` models the external
`fetch_nutritional_info` HTTP call; `now` models `datetime.now()`. -/
def add_item (fetchNut : String → Option NutInfo) (now : ℕ) (inv : Inventories)
    (user_id item_name : String) (quantity : ℤ) (expiry_date : Option ℕ)
    (portion_size : Option ℚ) (nutritional_info : Option NutInfo) : Inventories :=
  let userInv := (dictLookup inv user_id).getD []
  match dictLookup userInv item_name with
  | none =>
    dictInsert inv user_id (dictInsert userInv item_name
      (add_item_new_record fetchNut now item_name quantity expiry_date portion_size
        nutritional_info))
  | some r =>
    dictInsert inv user_id (dictInsert userInv item_name
      (add_item_bump now r quantity portion_size nutritional_info))

/-- `InventoryManager.remove_item`: decrement by `quantity` and delete the
record when the result is ≤ 0. -/
def remove_item (inv : Inventories) (user_id item_name : String) (quantity : ℤ) : Inventories :=
  match dictLookup inv user_id with
  | none => inv
  | some userInv =>
    match dictLookup userInv item_name with
    | none => inv
    | some r =>
      let r1 := { r with quantity := r.quantity - quantity }
      if r1.quantity ≤ 0 then dictInsert inv user_id (dictErase userInv item_name)
      else dictInsert inv user_id (dictInsert userInv item_name r1)

/-- `InventoryManager.clear_inventory`: reset the user's dict to `{}` when
the user key exists. -/
def clear_inventory (inv : Inventories) (user_id : String) : Inventories :=
  if (dictLookup inv user_id).isSome then dictInsert inv user_id [] else inv

/-- The in-place `quantity += 1` update of the else-branch of the first loop
of `update_from_detection`. -/
def update_step_bump (now : ℕ) (r : Record) (item : Detection) : Record :=
  let r1 := { r with quantity := r.quantity + 1, last_detected := now }
  let r2 := match item.portion_size with
    | some p => { r1 with portion_size := some p }
    | none => r1
  match item.nutritional_info with
  | some n => { r2 with nutritional_info := some n }
  | none => r2

/-- One iteration of the first loop of `update_from_detection`.  The
membership test uses the `current_items` snapshot taken before the loop;
`'portion_size' in item` / `'nutritional_info' in item` are key-presence
tests, modelled by `Option` presence. -/
def update_detected_step (fetchNut : String → Option NutInfo) (now : ℕ) (user_id : String)
    (current_items : List String) (inv : Inventories) (item : Detection) : Inventories :=
  if item.class_label ∉ current_items then
    add_item fetchNut now inv user_id item.class_label 1 none item.portion_size
      item.nutritional_info
  else
    let userInv := (dictLookup inv user_id).getD []
    match dictLookup userInv item.class_label with
    | none => inv
    | some r =>
      dictInsert inv user_id (dictInsert userInv item.class_label
        (update_step_bump now r item))

/-- `InventoryManager.update_from_detection`.  The second loop iterates over
`current_items - detected_item_names`; Python set iteration order is
unspecified, so we iterate in key-insertion order (all iterations touch
distinct keys, so the resulting dict does not depend on the order). -/
def update_from_detection (fetchNut : String → Option NutInfo) (now : ℕ)
    (inv : Inventories) (user_id : String) (detected_items : List Detection) : Inventories :=
  let inv1 := if (dictLookup inv user_id).isSome then inv else dictInsert inv user_id []
  let current_items := ((dictLookup inv1 user_id).getD []).map Prod.fst
  let detected_item_names := detected_items.map Detection.class_label
  let inv2 := detected_items.foldl (update_detected_step fetchNut now user_id current_items) inv1
  let to_remove := current_items.filter (fun i => i ∉ detected_item_names)
  to_remove.foldl (fun acc i => remove_item acc user_id i 1) inv2

end Inventory

namespace Inventory

/-- The dict `self.inventories[user_id]`, `{}` when the user key is absent. -/
def userItems (inv : Inventories) (u : String) : ItemDict :=
  (dictLookup inv u).getD []

/-- Lookup of one item record inside a user's dict. -/
def itemLookup (inv : Inventories) (u i : String) : Option Record :=
  dictLookup (userItems inv u) i

/-- `add_item` always writes `inventories[user_id] = userInv ∪ {item_name ↦ R}`
for some record `R`. -/
theorem add_item_shape (f : String → Option NutInfo) (now : ℕ) (inv : Inventories)
    (u it : String) (q : ℤ) (e : Option ℕ) (p : Option ℚ) (n : Option NutInfo) :
    ∃ R : Record, add_item f now inv u it q e p n
      = dictInsert inv u (dictInsert (userItems inv u) it R) := by
  unfold add_item userItems
  cases hl : dictLookup ((dictLookup inv u).getD []) it with
  | none =>
    exact ⟨add_item_new_record f now it q e p n, by simp only [hl]⟩
  | some r =>
    exact ⟨add_item_bump now r q p n, by simp only [hl]⟩

/-- `update_detected_step` either leaves the state unchanged or writes
`inventories[user_id] = userInv ∪ {class ↦ R}`. -/
theorem update_detected_step_shape (f : String → Option NutInfo) (now : ℕ) (u : String)
    (cur : List String) (inv : Inventories) (item : Detection) :
    update_detected_step f now u cur inv item = inv ∨
    ∃ R : Record, update_detected_step f now u cur inv item
      = dictInsert inv u (dictInsert (userItems inv u) item.class_label R) := by
  unfold update_detected_step
  by_cases hm : item.class_label ∉ cur
  · simp only [if_pos hm]
    exact Or.inr (add_item_shape f now inv u item.class_label 1 none item.portion_size
      item.nutritional_info)
  · simp only [if_neg hm]
    cases hl : dictLookup ((dictLookup inv u).getD []) item.class_label with
    | none => exact Or.inl (by simp only [hl])
    | some r =>
      exact Or.inr ⟨update_step_bump now r item, by simp only [hl]; rfl⟩

/-- `remove_item` either leaves the state unchanged, or erases the item from
the present user dict, or writes back a decremented record. -/
theorem remove_item_shape (inv : Inventories) (u j : String) (q : ℤ) :
    remove_item inv u j q = inv ∨
    ∃ uv, dictLookup inv u = some uv ∧
      ((∃ r : Record, dictLookup uv j = some r ∧ r.quantity - q ≤ 0 ∧
          remove_item inv u j q = dictInsert inv u (dictErase uv j)) ∨
       (∃ r : Record, dictLookup uv j = some r ∧ ¬ r.quantity - q ≤ 0 ∧
          remove_item inv u j q
            = dictInsert inv u (dictInsert uv j { r with quantity := r.quantity - q }))) := by
  unfold remove_item
  cases hu : dictLookup inv u with
  | none => exact Or.inl rfl
  | some uv =>
    cases hj : dictLookup uv j with
    | none => exact Or.inl (by simp only [hj])
    | some r =>
      by_cases hq : r.quantity - q ≤ 0
      · exact Or.inr ⟨uv, rfl, Or.inl ⟨r, hj, hq, by simp only [hj]; rw [if_pos hq]⟩⟩
      · exact Or.inr ⟨uv, rfl, Or.inr ⟨r, hj, hq, by simp only [hj]; rw [if_neg hq]⟩⟩

/-- Frame: `update_detected_step` does not touch records of other items. -/
theorem itemLookup_update_detected_step_ne (f : String → Option NutInfo) (now : ℕ)
    (u : String) (cur : List String) (inv : Inventories) (item : Detection) (i : String)
    (hne : item.class_label ≠ i) :
    itemLookup (update_detected_step f now u cur inv item) u i = itemLookup inv u i := by
  rcases update_detected_step_shape f now u cur inv item with h | ⟨R, h⟩
  · rw [h]
  · rw [h]
    unfold itemLookup userItems
    rw [dictLookup_insert_self]
    simp only [Option.getD_some]
    exact dictLookup_insert_ne _ _ _ _ (Ne.symm hne)

/-- Frame: `remove_item` does not touch records of other items. -/
theorem itemLookup_remove_item_ne (inv : Inventories) (u j : String) (q : ℤ) (i : String)
    (hne : j ≠ i) :
    itemLookup (remove_item inv u j q) u i = itemLookup inv u i := by
  rcases remove_item_shape inv u j q with h | ⟨uv, hu, hcase⟩
  · rw [h]
  · rcases hcase with ⟨r, _, _, h⟩ | ⟨r, _, _, h⟩
    · rw [h]
      unfold itemLookup userItems
      rw [dictLookup_insert_self]
      simp only [Option.getD_some, hu]
      exact dictLookup_erase_ne _ _ _ (Ne.symm hne)
    · rw [h]
      unfold itemLookup userItems
      rw [dictLookup_insert_self]
      simp only [Option.getD_some, hu]
      exact dictLookup_insert_ne _ _ _ _ (Ne.symm hne)

/-- `update_detected_step` keeps the user's key set duplicate-free. -/
theorem nodup_update_detected_step (f : String → Option NutInfo) (now : ℕ) (u : String)
    (cur : List String) (inv : Inventories) (item : Detection)
    (hnd : ((userItems inv u).map Prod.fst).Nodup) :
    ((userItems (update_detected_step f now u cur inv item) u).map Prod.fst).Nodup := by
  rcases update_detected_step_shape f now u cur inv item with h | ⟨R, h⟩
  · rwa [h]
  · rw [h]
    unfold userItems
    rw [dictLookup_insert_self]
    exact nodup_keys_dictInsert _ _ _ hnd

/-- `remove_item` keeps the user's key set duplicate-free. -/
theorem nodup_remove_item (inv : Inventories) (u j : String) (q : ℤ)
    (hnd : ((userItems inv u).map Prod.fst).Nodup) :
    ((userItems (remove_item inv u j q) u).map Prod.fst).Nodup := by
  rcases remove_item_shape inv u j q with h | ⟨uv, hu, hcase⟩
  · rwa [h]
  · have huv : userItems inv u = uv := by simp [userItems, hu]
    rcases hcase with ⟨r, _, _, h⟩ | ⟨r, _, _, h⟩
    · rw [h]
      unfold userItems
      rw [dictLookup_insert_self]
      exact nodup_keys_dictErase _ _ (huv ▸ hnd)
    · rw [h]
      unfold userItems
      rw [dictLookup_insert_self]
      exact nodup_keys_dictInsert _ _ _ (huv ▸ hnd)

end Inventory

namespace Inventory

/-- Frame relation for C10: `inv'` agrees with `inv` on every user other
than `u`. -/
def sameOtherUsers (u : String) (inv inv' : Inventories) : Prop :=
  ∀ o, o ≠ u → dictLookup inv' o = dictLookup inv o

theorem sameOtherUsers_refl (u : String) (inv : Inventories) : sameOtherUsers u inv inv :=
  fun _ _ => rfl

theorem sameOtherUsers_trans {u : String} {a b c : Inventories}
    (h1 : sameOtherUsers u a b) (h2 : sameOtherUsers u b c) : sameOtherUsers u a c :=
  fun o ho => (h2 o ho).trans (h1 o ho)

theorem sameOtherUsers_insert (u : String) (inv : Inventories) (x : ItemDict) :
    sameOtherUsers u inv (dictInsert inv u x) :=
  fun o ho => dictLookup_insert_ne inv u o x ho

theorem sameOtherUsers_add_item (f : String → Option NutInfo) (now : ℕ) (inv : Inventories)
    (u it : String) (q : ℤ) (e : Option ℕ) (p : Option ℚ) (n : Option NutInfo) :
    sameOtherUsers u inv (add_item f now inv u it q e p n) := by
  obtain ⟨R, hR⟩ := add_item_shape f now inv u it q e p n
  rw [hR]
  exact sameOtherUsers_insert u inv _

theorem sameOtherUsers_remove_item (inv : Inventories) (u j : String) (q : ℤ) :
    sameOtherUsers u inv (remove_item inv u j q) := by
  rcases remove_item_shape inv u j q with h | ⟨uv, _, hcase⟩
  · rw [h]; exact sameOtherUsers_refl u inv
  · rcases hcase with ⟨r, _, _, h⟩ | ⟨r, _, _, h⟩ <;>
      (rw [h]; exact sameOtherUsers_insert u inv _)

theorem sameOtherUsers_clear (inv : Inventories) (u : String) :
    sameOtherUsers u inv (clear_inventory inv u) := by
  unfold clear_inventory
  by_cases h : (dictLookup inv u).isSome
  · simp only [if_pos h]
    exact sameOtherUsers_insert u inv []
  · simp only [if_neg h]
    exact sameOtherUsers_refl u inv

theorem sameOtherUsers_update_step (f : String → Option NutInfo) (now : ℕ) (u : String)
    (cur : List String) (inv : Inventories) (item : Detection) :
    sameOtherUsers u inv (update_detected_step f now u cur inv item) := by
  rcases update_detected_step_shape f now u cur inv item with h | ⟨R, h⟩
  · rw [h]; exact sameOtherUsers_refl u inv
  · rw [h]; exact sameOtherUsers_insert u inv _

theorem sameOtherUsers_foldl {β : Type} (u : String) (step : Inventories → β → Inventories)
    (hstep : ∀ acc x, sameOtherUsers u acc (step acc x)) :
    ∀ (l : List β) (acc : Inventories), sameOtherUsers u acc (l.foldl step acc)
  | [], acc => sameOtherUsers_refl u acc
  | x :: xs, acc =>
    sameOtherUsers_trans (hstep acc x) (sameOtherUsers_foldl u step hstep xs (step acc x))

theorem sameOtherUsers_update_from_detection (f : String → Option NutInfo) (now : ℕ)
    (inv : Inventories) (u : String) (dets : List Detection) :
    sameOtherUsers u inv (update_from_detection f now inv u dets) := by
  unfold update_from_detection
  refine sameOtherUsers_trans (b := if (dictLookup inv u).isSome then inv
    else dictInsert inv u []) ?_ ?_
  · by_cases h : (dictLookup inv u).isSome
    · simp only [if_pos h]; exact sameOtherUsers_refl u inv
    · simp only [if_neg h]; exact sameOtherUsers_insert u inv []
  · exact sameOtherUsers_trans
      (sameOtherUsers_foldl u _ (fun acc x => sameOtherUsers_update_step f now u _ acc x) _ _)
      (sameOtherUsers_foldl u _ (fun acc x => sameOtherUsers_remove_item acc u x 1) _ _)

end Inventory

/-- C10: every mutating `InventoryManager` operation invoked for one user
(`add_item`, `remove_item`, `clear_inventory`, `update_from_detection`)
leaves every other user's record set exactly unchanged. -/
theorem c10_other_users_unchanged (fetchNut : String → Option Inventory.NutInfo) (now : ℕ)
    (inv : Inventory.Inventories) (user other item : String) (q : ℤ) (e : Option ℕ)
    (p : Option ℚ) (n : Option Inventory.NutInfo) (dets : List Inventory.Detection)
    (h : other ≠ user) :
    dictLookup (Inventory.add_item fetchNut now inv user item q e p n) other
        = dictLookup inv other ∧
    dictLookup (Inventory.remove_item inv user item q) other = dictLookup inv other ∧
    dictLookup (Inventory.clear_inventory inv user) other = dictLookup inv other ∧
    dictLookup (Inventory.update_from_detection fetchNut now inv user dets) other
        = dictLookup inv other :=
  ⟨Inventory.sameOtherUsers_add_item fetchNut now inv user item q e p n other h,
   Inventory.sameOtherUsers_remove_item inv user item q other h,
   Inventory.sameOtherUsers_clear inv user other h,
   Inventory.sameOtherUsers_update_from_detection fetchNut now inv user dets other h⟩

/-- Witness for C10 at a concrete state: user `"1"` operations leave user
`"2"` untouched. -/
theorem c10_other_users_unchanged_witness :
    ("2" : String) ≠ "1" ∧
    (dictLookup (Inventory.add_item (fun _ => none) 0
        [("2", [("milk", ⟨1, 7, 0, 0, "dairy", none, none⟩)])] "1" "apple" 1 none none none) "2"
      = dictLookup [("2", [("milk", ⟨1, 7, 0, 0, "dairy", none, none⟩)])] "2" ∧
     dictLookup (Inventory.remove_item
        [("2", [("milk", ⟨1, 7, 0, 0, "dairy", none, none⟩)])] "1" "apple" 1) "2"
      = dictLookup [("2", [("milk", ⟨1, 7, 0, 0, "dairy", none, none⟩)])] "2" ∧
     dictLookup (Inventory.clear_inventory
        [("2", [("milk", ⟨1, 7, 0, 0, "dairy", none, none⟩)])] "1") "2"
      = dictLookup [("2", [("milk", ⟨1, 7, 0, 0, "dairy", none, none⟩)])] "2" ∧
     dictLookup (Inventory.update_from_detection (fun _ => none) 0
        [("2", [("milk", ⟨1, 7, 0, 0, "dairy", none, none⟩)])] "1" [⟨"apple", none, none⟩]) "2"
      = dictLookup [("2", [("milk", ⟨1, 7, 0, 0, "dairy", none, none⟩)])] "2") :=
  ⟨by decide,
   c10_other_users_unchanged (fun _ => none) 0
     [("2", [("milk", ⟨1, 7, 0, 0, "dairy", none, none⟩)])] "1" "2" "apple" 1 none none none
     [⟨"apple", none, none⟩] (by decide)⟩

/-- C3: reconciling the detection batch `["apple", "apple", "milk"]` against
an empty record set yields exactly two records, `"apple"` with quantity 2
and `"milk"` with quantity 1 (each duplicate label contributes one
increment). -/
theorem c3_duplicate_labels_increment :
    (Inventory.userItems (Inventory.update_from_detection (fun _ => none) 0 [] "1"
        [⟨"apple", none, none⟩, ⟨"apple", none, none⟩, ⟨"milk", none, none⟩]) "1").length = 2 ∧
    (Inventory.itemLookup (Inventory.update_from_detection (fun _ => none) 0 [] "1"
        [⟨"apple", none, none⟩, ⟨"apple", none, none⟩, ⟨"milk", none, none⟩]) "1" "apple").map
      Inventory.Record.quantity = some 2 ∧
    (Inventory.itemLookup (Inventory.update_from_detection (fun _ => none) 0 [] "1"
        [⟨"apple", none, none⟩, ⟨"apple", none, none⟩, ⟨"milk", none, none⟩]) "1" "milk").map
      Inventory.Record.quantity = some 1 := by
  decide

namespace Inventory

/-- Effect of `remove_item` on the removed item itself: decrement by `q`,
delete when the result is ≤ 0. -/
theorem itemLookup_remove_item_self (inv : Inventories) (u i : String) (q : ℤ) (r : Record)
    (hnd : ((userItems inv u).map Prod.fst).Nodup)
    (hi : itemLookup inv u i = some r) :
    itemLookup (remove_item inv u i q) u i =
      if r.quantity - q ≤ 0 then none else some { r with quantity := r.quantity - q } := by
  unfold itemLookup at hi
  cases hu : dictLookup inv u with
  | none =>
    have he : userItems inv u = [] := by simp [userItems, hu]
    rw [he] at hi
    simp [dictLookup] at hi
  | some uv =>
    have huv : userItems inv u = uv := by simp [userItems, hu]
    rw [huv] at hi hnd
    unfold remove_item
    simp only [hu, hi]
    by_cases hq : r.quantity - q ≤ 0
    · rw [if_pos hq, if_pos hq]
      unfold itemLookup userItems
      rw [dictLookup_insert_self]
      exact dictLookup_erase_self uv i hnd
    · rw [if_neg hq, if_neg hq]
      unfold itemLookup userItems
      rw [dictLookup_insert_self]
      simp only [Option.getD_some]
      exact dictLookup_insert_self uv i _

/-- The first loop of `update_from_detection` does not touch an item whose
name is not among the detected class labels. -/
theorem itemLookup_foldl_update_steps (f : String → Option NutInfo) (now : ℕ) (u : String)
    (cur : List String) (i : String) :
    ∀ (dets : List Detection) (inv : Inventories), (∀ dt ∈ dets, dt.class_label ≠ i) →
      itemLookup (dets.foldl (update_detected_step f now u cur) inv) u i = itemLookup inv u i
  | [], inv, _ => rfl
  | dt :: dts, inv, h => by
    rw [List.foldl_cons]
    rw [itemLookup_foldl_update_steps f now u cur i dts _
      (fun x hx => h x (List.mem_cons_of_mem _ hx))]
    exact itemLookup_update_detected_step_ne f now u cur inv dt i (h dt (List.mem_cons_self _ _))

/-- The first loop of `update_from_detection` keeps the user's key set
duplicate-free. -/
theorem nodup_foldl_update_steps (f : String → Option NutInfo) (now : ℕ) (u : String)
    (cur : List String) :
    ∀ (dets : List Detection) (inv : Inventories),
      ((userItems inv u).map Prod.fst).Nodup →
      ((userItems (dets.foldl (update_detected_step f now u cur) inv) u).map Prod.fst).Nodup
  | [], _, h => h
  | dt :: dts, inv, h => by
    rw [List.foldl_cons]
    exact nodup_foldl_update_steps f now u cur dts _
      (nodup_update_detected_step f now u cur inv dt h)

/-- The removal loop does not touch an item that is not in its list. -/
theorem itemLookup_foldl_remove_not_mem (u i : String) :
    ∀ (l : List String) (inv : Inventories), i ∉ l →
      itemLookup (l.foldl (fun acc j => remove_item acc u j 1) inv) u i = itemLookup inv u i
  | [], _, _ => rfl
  | j :: js, inv, h => by
    rw [List.foldl_cons]
    rw [itemLookup_foldl_remove_not_mem u i js _ (fun hm => h (List.mem_cons_of_mem _ hm))]
    exact itemLookup_remove_item_ne inv u j 1 i (fun e => h (e ▸ List.mem_cons_self _ _))

/-- The removal loop keeps the user's key set duplicate-free. -/
theorem nodup_foldl_remove (u : String) :
    ∀ (l : List String) (inv : Inventories),
      ((userItems inv u).map Prod.fst).Nodup →
      ((userItems (l.foldl (fun acc j => remove_item acc u j 1) inv) u).map Prod.fst).Nodup
  | [], _, h => h
  | j :: js, inv, h => by
    rw [List.foldl_cons]
    exact nodup_foldl_remove u js _ (nodup_remove_item inv u j 1 h)

/-- Effect of the removal loop on an item that occurs in the (duplicate-free)
removal list: exactly one decrement by 1, deleting at ≤ 0. -/
theorem itemLookup_foldl_remove_mem (u i : String) (r : Record) :
    ∀ (l : List String) (inv : Inventories), l.Nodup → i ∈ l →
      ((userItems inv u).map Prod.fst).Nodup → itemLookup inv u i = some r →
      itemLookup (l.foldl (fun acc j => remove_item acc u j 1) inv) u i
        = if r.quantity - 1 ≤ 0 then none else some { r with quantity := r.quantity - 1 }
  | [], _, _, hmem, _, _ => absurd hmem (List.not_mem_nil i)
  | j :: js, inv, hnd, hmem, hinv, hi => by
    rw [List.foldl_cons]
    rcases List.nodup_cons.mp hnd with ⟨hj, hjs⟩
    by_cases hji : j = i
    · subst hji
      rw [itemLookup_foldl_remove_not_mem u j js _ hj]
      exact itemLookup_remove_item_self inv u j 1 r hinv hi
    · rcases List.mem_cons.mp hmem with h | h
      · exact absurd h.symm hji
      · exact itemLookup_foldl_remove_mem u i r js _ hjs h
          (nodup_remove_item inv u j 1 hinv)
          ((itemLookup_remove_item_ne inv u j 1 i hji).trans hi)

/-- Unfolding of `update_from_detection` when the user key is present. -/
theorem update_from_detection_eq (f : String → Option NutInfo) (now : ℕ)
    (inv : Inventories) (u : String) (dets : List Detection) (uv : ItemDict)
    (hu : dictLookup inv u = some uv) :
    update_from_detection f now inv u dets =
      ((uv.map Prod.fst).filter
          (fun x => x ∉ dets.map Detection.class_label)).foldl
        (fun acc j => remove_item acc u j 1)
        (dets.foldl (update_detected_step f now u (uv.map Prod.fst)) inv) := by
  unfold update_from_detection
  simp [hu]

end Inventory

/-- C1 as stated in the spec fails on the code: reconciling an empty
detection batch against `{"apple": qty 3}` leaves one record, `"apple"`
with quantity 2 — `update_from_detection` removes undetected items via
`remove_item`, which decrements by 1 and only deletes at quantity ≤ 0, so
the record set is not empty. -/
theorem c1_counterexample_record_retained :
    (Inventory.userItems (Inventory.update_from_detection (fun _ => none) 0
        [("1", [("apple", ⟨3, 14, 0, 0, "fruits", none, none⟩)])] "1" []) "1").length = 1 ∧
    (Inventory.itemLookup (Inventory.update_from_detection (fun _ => none) 0
        [("1", [("apple", ⟨3, 14, 0, 0, "fruits", none, none⟩)])] "1" []) "1" "apple").map
      Inventory.Record.quantity = some 2 ∧
    ¬ Inventory.userItems (Inventory.update_from_detection (fun _ => none) 0
        [("1", [("apple", ⟨3, 14, 0, 0, "fruits", none, none⟩)])] "1" []) "1" = [] := by
  decide

/-- C1 amended: after `update_from_detection`, every item present in the
user's record set before the call but absent from the batch's class labels
has its quantity decremented by 1 (all other fields unchanged); the record
is deleted only when the decremented quantity is ≤ 0.  In particular
`{"apple": qty 3}` reconciled with an empty batch yields `{"apple": qty 2}`,
not an empty record set. -/
theorem c1_amended_undetected_decrement (f : String → Option Inventory.NutInfo) (now : ℕ)
    (inv : Inventory.Inventories) (u : String) (dets : List Inventory.Detection)
    (i : String) (r : Inventory.Record)
    (hnd : ((Inventory.userItems inv u).map Prod.fst).Nodup)
    (hi : Inventory.itemLookup inv u i = some r)
    (hno : i ∉ dets.map Inventory.Detection.class_label) :
    Inventory.itemLookup (Inventory.update_from_detection f now inv u dets) u i
      = if r.quantity - 1 ≤ 0 then none
        else some { r with quantity := r.quantity - 1 } := by
  cases hu : dictLookup inv u with
  | none =>
    rw [Inventory.itemLookup, Inventory.userItems, hu] at hi
    simp [dictLookup] at hi
  | some uv =>
    have huv : Inventory.userItems inv u = uv := by simp [Inventory.userItems, hu]
    rw [Inventory.update_from_detection_eq f now inv u dets uv hu]
    have hne : ∀ dt ∈ dets, dt.class_label ≠ i := by
      intro dt hdt he
      exact hno (he ▸ List.mem_map.mpr ⟨dt, hdt, rfl⟩)
    have h1 : Inventory.itemLookup
        (dets.foldl (Inventory.update_detected_step f now u (uv.map Prod.fst)) inv) u i
        = some r :=
      (Inventory.itemLookup_foldl_update_steps f now u (uv.map Prod.fst) i dets inv hne).trans hi
    have h2 : ((Inventory.userItems
        (dets.foldl (Inventory.update_detected_step f now u (uv.map Prod.fst)) inv) u).map
          Prod.fst).Nodup :=
      Inventory.nodup_foldl_update_steps f now u (uv.map Prod.fst) dets inv hnd
    have hikeys : i ∈ uv.map Prod.fst := by
      rw [Inventory.itemLookup, huv] at hi
      exact List.mem_map.mpr ⟨(i, r), dictLookup_mem hi, rfl⟩
    have himem : i ∈ (uv.map Prod.fst).filter
        (fun x => x ∉ dets.map Inventory.Detection.class_label) :=
      List.mem_filter.mpr ⟨hikeys, by simpa using hno⟩
    have hlnd : ((uv.map Prod.fst).filter
        (fun x => x ∉ dets.map Inventory.Detection.class_label)).Nodup :=
      List.Nodup.filter _ (huv ▸ hnd)
    exact Inventory.itemLookup_foldl_remove_mem u i r _ _ hlnd himem h2 h1

/-- Witness for the amended C1 at the spec's own example state. -/
theorem c1_amended_undetected_decrement_witness :
    ((Inventory.userItems [("1", [("apple",
        (⟨3, 14, 0, 0, "fruits", none, none⟩ : Inventory.Record))])] "1").map
      Prod.fst).Nodup ∧
    Inventory.itemLookup [("1", [("apple",
        (⟨3, 14, 0, 0, "fruits", none, none⟩ : Inventory.Record))])] "1" "apple"
      = some ⟨3, 14, 0, 0, "fruits", none, none⟩ ∧
    ¬ ("apple" : String) ∈ ([] : List Inventory.Detection).map Inventory.Detection.class_label ∧
    Inventory.itemLookup (Inventory.update_from_detection (fun _ => none) 0
        [("1", [("apple", ⟨3, 14, 0, 0, "fruits", none, none⟩)])] "1" []) "1" "apple"
      = some ⟨2, 14, 0, 0, "fruits", none, none⟩ :=
  ⟨by decide, by decide, by decide, by
    have h := c1_amended_undetected_decrement (fun _ => none) 0
      [("1", [("apple", ⟨3, 14, 0, 0, "fruits", none, none⟩)])] "1" []
      "apple" ⟨3, 14, 0, 0, "fruits", none, none⟩ (by decide) (by decide) (by decide)
    rw [h]
    decide⟩

namespace Inventory

/-- The invariant claimed by the spec: no stored record has quantity ≤ 0. -/
def InvPos (inv : Inventories) : Prop :=
  ∀ p ∈ inv, ∀ qr ∈ p.2, 0 < (qr.2 : Record).quantity

instance (inv : Inventories) : Decidable (InvPos inv) :=
  inferInstanceAs (Decidable (∀ p ∈ inv, ∀ qr ∈ p.2, 0 < (qr.2 : Record).quantity))

theorem add_item_new_record_quantity (f : String → Option NutInfo) (now : ℕ) (it : String)
    (q : ℤ) (e : Option ℕ) (p : Option ℚ) (n : Option NutInfo) :
    (add_item_new_record f now it q e p n).quantity = q := rfl

theorem add_item_bump_quantity (now : ℕ) (r : Record) (q : ℤ) (p : Option ℚ)
    (n : Option NutInfo) : (add_item_bump now r q p n).quantity = r.quantity + q := by
  unfold add_item_bump
  rcases n with _ | n' <;> rcases p with _ | p' <;> (try rfl) <;> (dsimp only; split <;> rfl)

theorem update_step_bump_quantity (now : ℕ) (r : Record) (item : Detection) :
    (update_step_bump now r item).quantity = r.quantity + 1 := by
  unfold update_step_bump
  rcases item with ⟨c, ps, ni⟩
  rcases ps with _ | p' <;> rcases ni with _ | n' <;> rfl

/-- Case analysis of `add_item`, exposing the record that gets written. -/
theorem add_item_cases (f : String → Option NutInfo) (now : ℕ) (inv : Inventories)
    (u it : String) (q : ℤ) (e : Option ℕ) (p : Option ℚ) (n : Option NutInfo) :
    (dictLookup (userItems inv u) it = none ∧
      add_item f now inv u it q e p n
        = dictInsert inv u (dictInsert (userItems inv u) it
            (add_item_new_record f now it q e p n))) ∨
    (∃ r, dictLookup (userItems inv u) it = some r ∧
      add_item f now inv u it q e p n
        = dictInsert inv u (dictInsert (userItems inv u) it
            (add_item_bump now r q p n))) := by
  unfold add_item userItems
  cases hl : dictLookup ((dictLookup inv u).getD []) it with
  | none => exact Or.inl ⟨rfl, by simp only [hl]⟩
  | some r => exact Or.inr ⟨r, rfl, by simp only [hl]⟩

/-- Case analysis of `update_detected_step`. -/
theorem update_detected_step_cases (f : String → Option NutInfo) (now : ℕ) (u : String)
    (cur : List String) (inv : Inventories) (item : Detection) :
    (update_detected_step f now u cur inv item
       = add_item f now inv u item.class_label 1 none item.portion_size
           item.nutritional_info) ∨
    (update_detected_step f now u cur inv item = inv) ∨
    (∃ r, dictLookup (userItems inv u) item.class_label = some r ∧
       update_detected_step f now u cur inv item
         = dictInsert inv u (dictInsert (userItems inv u) item.class_label
             (update_step_bump now r item))) := by
  unfold update_detected_step userItems
  by_cases hm : item.class_label ∉ cur
  · simp only [if_pos hm]
    exact Or.inl trivial
  · simp only [if_neg hm]
    cases hl : dictLookup ((dictLookup inv u).getD []) item.class_label with
    | none => exact Or.inr (Or.inl (by simp only [hl]))
    | some r => exact Or.inr (Or.inr ⟨r, rfl, by simp only [hl]⟩)

theorem invPos_userItems {inv : Inventories} {u : String} (h : InvPos inv) :
    ∀ qr ∈ userItems inv u, 0 < (qr.2 : Record).quantity := by
  intro qr hqr
  unfold userItems at hqr
  cases hu : dictLookup inv u with
  | none => rw [hu] at hqr; simp at hqr
  | some uv =>
    rw [hu] at hqr
    exact h (u, uv) (dictLookup_mem hu) qr hqr

theorem invPos_insert {inv : Inventories} {u : String} {x : ItemDict} (h : InvPos inv)
    (hx : ∀ qr ∈ x, 0 < (qr.2 : Record).quantity) : InvPos (dictInsert inv u x) := by
  intro p hp qr hqr
  rcases mem_dictInsert hp with hm | he
  · exact h p hm qr hqr
  · rw [he] at hqr
    exact hx qr hqr

theorem invPos_inner_insert {x : ItemDict} {i : String} {R : Record}
    (hx : ∀ qr ∈ x, 0 < (qr.2 : Record).quantity) (hR : 0 < R.quantity) :
    ∀ qr ∈ dictInsert x i R, 0 < (qr.2 : Record).quantity := by
  intro qr hqr
  rcases mem_dictInsert hqr with hm | he
  · exact hx qr hm
  · rw [he]
    exact hR

theorem invPos_add_item {inv : Inventories} (f : String → Option NutInfo) (now : ℕ)
    (u it : String) {q : ℤ} (e : Option ℕ) (p : Option ℚ) (n : Option NutInfo)
    (h : InvPos inv) (hq : 0 < q) : InvPos (add_item f now inv u it q e p n) := by
  rcases add_item_cases f now inv u it q e p n with ⟨_, heq⟩ | ⟨r, hl, heq⟩
  · rw [heq]
    exact invPos_insert h (invPos_inner_insert (invPos_userItems h)
      (by rw [add_item_new_record_quantity]; exact hq))
  · rw [heq]
    have hr : 0 < r.quantity := invPos_userItems h (it, r) (dictLookup_mem hl)
    exact invPos_insert h (invPos_inner_insert (invPos_userItems h)
      (by rw [add_item_bump_quantity]; exact add_pos hr hq))

theorem invPos_remove_item {inv : Inventories} (u j : String) (q : ℤ)
    (h : InvPos inv) : InvPos (remove_item inv u j q) := by
  rcases remove_item_shape inv u j q with heq | ⟨uv, hu, hcase⟩
  · rwa [heq]
  · have huv : ∀ qr ∈ uv, 0 < (qr.2 : Record).quantity :=
      fun qr hqr => h (u, uv) (dictLookup_mem hu) qr hqr
    rcases hcase with ⟨r, _, _, heq⟩ | ⟨r, _, hq, heq⟩
    · rw [heq]
      exact invPos_insert h (fun qr hqr => huv qr (mem_dictErase hqr))
    · rw [heq]
      exact invPos_insert h (invPos_inner_insert huv (by simpa using lt_of_not_le hq))

theorem invPos_clear_inventory {inv : Inventories} (u : String) (h : InvPos inv) :
    InvPos (clear_inventory inv u) := by
  unfold clear_inventory
  by_cases hs : (dictLookup inv u).isSome
  · simp only [if_pos hs]
    exact invPos_insert h (by intro qr hqr; simp at hqr)
  · simpa only [if_neg hs] using h

theorem invPos_update_detected_step {inv : Inventories} (f : String → Option NutInfo)
    (now : ℕ) (u : String) (cur : List String) (item : Detection) (h : InvPos inv) :
    InvPos (update_detected_step f now u cur inv item) := by
  rcases update_detected_step_cases f now u cur inv item with heq | heq | ⟨r, hl, heq⟩
  · rw [heq]
    exact invPos_add_item f now u item.class_label none item.portion_size
      item.nutritional_info h one_pos
  · rwa [heq]
  · rw [heq]
    have hr : 0 < r.quantity := invPos_userItems h (item.class_label, r) (dictLookup_mem hl)
    exact invPos_insert h (invPos_inner_insert (invPos_userItems h)
      (by rw [update_step_bump_quantity]; exact add_pos hr one_pos))

theorem invPos_foldl_update_steps (f : String → Option NutInfo) (now : ℕ) (u : String)
    (cur : List String) :
    ∀ (dets : List Detection) (inv : Inventories), InvPos inv →
      InvPos (dets.foldl (update_detected_step f now u cur) inv)
  | [], _, h => h
  | dt :: dts, inv, h => by
    rw [List.foldl_cons]
    exact invPos_foldl_update_steps f now u cur dts _
      (invPos_update_detected_step f now u cur dt h)

theorem invPos_foldl_remove (u : String) :
    ∀ (l : List String) (inv : Inventories), InvPos inv →
      InvPos (l.foldl (fun acc j => remove_item acc u j 1) inv)
  | [], _, h => h
  | j :: js, inv, h => by
    rw [List.foldl_cons]
    exact invPos_foldl_remove u js _ (invPos_remove_item u j 1 h)

theorem invPos_update_from_detection {inv : Inventories} (f : String → Option NutInfo)
    (now : ℕ) (u : String) (dets : List Detection) (h : InvPos inv) :
    InvPos (update_from_detection f now inv u dets) := by
  unfold update_from_detection
  have h1 : InvPos (if (dictLookup inv u).isSome then inv else dictInsert inv u []) := by
    by_cases hs : (dictLookup inv u).isSome
    · simpa only [if_pos hs] using h
    · simp only [if_neg hs]
      exact invPos_insert h (by intro qr hqr; simp at hqr)
  exact invPos_foldl_remove u _ _ (invPos_foldl_update_steps f now u _ dets _ h1)

/-- One public mutating call on `InventoryManager` (`datetime.now()` at call
time is carried in the constructor where the operation reads the clock). -/
inductive Op where
  | add (now : ℕ) (user item : String) (quantity : ℤ) (expiry : Option ℕ)
      (portion : Option ℚ) (nut : Option NutInfo)
  | remove (user item : String) (quantity : ℤ)
  | update (now : ℕ) (user : String) (dets : List Detection)
  | clear (user : String)

/-- Interpreter for one operation. -/
def applyOp (f : String → Option NutInfo) (inv : Inventories) : Op → Inventories
  | Op.add now user item q e p n => add_item f now inv user item q e p n
  | Op.remove user item q => remove_item inv user item q
  | Op.update now user dets => update_from_detection f now inv user dets
  | Op.clear user => clear_inventory inv user

/-- Interpreter for a call sequence. -/
def applyOps (f : String → Option NutInfo) (inv : Inventories) (ops : List Op) : Inventories :=
  ops.foldl (applyOp f) inv

/-- Holds of an operation unless it is an `add_item` call with quantity ≤ 0. -/
def addPositive : Op → Prop
  | Op.add _ _ _ q _ _ _ => 0 < q
  | _ => True

instance (op : Op) : Decidable (addPositive op) := by
  cases op <;> unfold addPositive <;> infer_instance

/-- The restriction the counterexample forces: every `add_item` call in the
sequence passes a positive quantity. -/
def addQuantitiesPositive (ops : List Op) : Prop :=
  ∀ op ∈ ops, addPositive op

instance (ops : List Op) : Decidable (addQuantitiesPositive ops) :=
  inferInstanceAs (Decidable (∀ op ∈ ops, addPositive op))

end Inventory

/-- C2 as stated fails on the code: `add_item` with quantity 0 creates and
retains a record whose quantity is 0 (the claim allows `add_item` with any
quantity argument, and `add_item` never deletes). -/
theorem c2_counterexample_zero_quantity_retained :
    ¬ Inventory.InvPos (Inventory.applyOps (fun _ => none) []
        [Inventory.Op.add 0 "1" "apple" 0 none none none]) := by
  decide

/-- C2 amended: for every call sequence in which every `add_item` call passes
a positive quantity, starting from a state whose records all have positive
quantity, no record with quantity ≤ 0 is ever retained — `remove_item`
(with any quantity), `clear_inventory` and `update_from_detection` need no
restriction. -/
theorem c2_amended_positive_invariant (f : String → Option Inventory.NutInfo) :
    ∀ (ops : List Inventory.Op) (inv : Inventory.Inventories), Inventory.InvPos inv →
      Inventory.addQuantitiesPositive ops → Inventory.InvPos (Inventory.applyOps f inv ops)
  | [], _, h, _ => h
  | op :: ops, inv, h, hq => by
    have hstep : Inventory.InvPos (Inventory.applyOp f inv op) := by
      cases op with
      | add now user item q e p n =>
        exact Inventory.invPos_add_item f now user item e p n h
          (hq (Inventory.Op.add now user item q e p n) (List.mem_cons_self _ _))
      | remove user item q => exact Inventory.invPos_remove_item user item q h
      | update now user dets => exact Inventory.invPos_update_from_detection f now user dets h
      | clear user => exact Inventory.invPos_clear_inventory user h
    exact c2_amended_positive_invariant f ops _ hstep
      (fun x hx => hq x (List.mem_cons_of_mem _ hx))

/-- Witness for the amended C2 on a concrete two-call sequence. -/
theorem c2_amended_positive_invariant_witness :
    Inventory.InvPos [] ∧
    Inventory.addQuantitiesPositive
      [Inventory.Op.add 0 "1" "apple" 2 none none none,
       Inventory.Op.remove "1" "apple" 1] ∧
    Inventory.InvPos (Inventory.applyOps (fun _ => none) []
      [Inventory.Op.add 0 "1" "apple" 2 none none none,
       Inventory.Op.remove "1" "apple" 1]) :=
  ⟨by decide, by decide,
   c2_amended_positive_invariant (fun _ => none)
     [Inventory.Op.add 0 "1" "apple" 2 none none none,
      Inventory.Op.remove "1" "apple" 1] [] (by decide) (by decide)⟩

/-! ## Image comparator (`src/ai/image_comparator.py`): region merging

`ChangeRegion` keeps the dataclass fields (`int` coordinates as `ℤ`,
`float` confidence as `ℚ`).  `merge_overlapping_regions` sorts by area
descending — Python's stable `sorted(..., reverse=True)` is modelled by
`List.insertionSort` with the total preorder `areaGE` — then greedily
merges each region into the first kept region whose overlap ratio exceeds
the threshold, keeping the maximum confidence.  `_calculate_overlap`
divides by `min(area1, area2)`; the total `ℚ` division (`x / 0 = 0`)
models the value, and `calculate_overlap_checked` models the Python
`ZeroDivisionError` as `none`. -/

namespace ImageComp

/-- The `ChangeRegion` dataclass. -/
structure ChangeRegion where
  x : ℤ
  y : ℤ
  width : ℤ
  height : ℤ
  confidence : ℚ
  zone : String
  change_type : String
deriving DecidableEq

/-- `ImageComparator._calculate_overlap`: intersection area over the smaller
region's area, 0.0 for disjoint rectangles. -/
def calculate_overlap (region1 region2 : ChangeRegion) : ℚ :=
  let x1 := max region1.x region2.x
  let y1 := max region1.y region2.y
  let x2 := min (region1.x + region1.width) (region2.x + region2.width)
  let y2 := min (region1.y + region1.height) (region2.y + region2.height)
  if x2 < x1 ∨ y2 < y1 then 0
  else
    let intersection := (x2 - x1) * (y2 - y1)
    let area1 := region1.width * region1.height
    let area2 := region2.width * region2.height
    (intersection : ℚ) / ((min area1 area2 : ℤ) : ℚ)

/-- `_calculate_overlap` with the division guarded: `none` models the Python
`ZeroDivisionError` raised when `min(area1, area2) = 0` (the disjointness
guard does not protect regions of zero width or height). -/
def calculate_overlap_checked (region1 region2 : ChangeRegion) : Option ℚ :=
  let x1 := max region1.x region2.x
  let y1 := max region1.y region2.y
  let x2 := min (region1.x + region1.width) (region2.x + region2.width)
  let y2 := min (region1.y + region1.height) (region2.y + region2.height)
  if x2 < x1 ∨ y2 < y1 then some 0
  else
    let intersection := (x2 - x1) * (y2 - y1)
    let area1 := region1.width * region1.height
    let area2 := region2.width * region2.height
    if min area1 area2 = 0 then none
    else some ((intersection : ℚ) / ((min area1 area2 : ℤ) : ℚ))

/-- The sort key `c.width * c.height` of `merge_overlapping_regions`. -/
def area (c : ChangeRegion) : ℤ := c.width * c.height

/-- Sort order of `sorted(changes, key=area, reverse=True)`: larger or equal
area first. -/
def areaGE (a b : ChangeRegion) : Prop := area b ≤ area a

instance : DecidableRel areaGE := fun a b => inferInstanceAs (Decidable (area b ≤ area a))

instance : IsTotal ChangeRegion areaGE :=
  ⟨fun a b => (le_total (area b) (area a)).imp id id⟩

instance : IsTrans ChangeRegion areaGE :=
  ⟨fun _ _ _ hab hbc => le_trans hbc hab⟩

/-- The inner `for existing in merged` scan of `merge_overlapping_regions`:
merge `change` into the first overlapping kept region (updating its
confidence in place to the max), else append `change` at the end. -/
def mergeStep (t : ℚ) : List ChangeRegion → ChangeRegion → List ChangeRegion
  | [], change => [change]
  | existing :: rest, change =>
    if t < calculate_overlap change existing then
      { existing with confidence := max existing.confidence change.confidence } :: rest
    else
      existing :: mergeStep t rest change

/-- `ImageComparator.merge_overlapping_regions`. -/
def merge_overlapping_regions (t : ℚ) (changes : List ChangeRegion) : List ChangeRegion :=
  if changes = [] then []
  else (changes.insertionSort areaGE).foldl (mergeStep t) []

/-- `mergeStep` with the overlap computation guarded as in Python: a
`ZeroDivisionError` in `_calculate_overlap` aborts the whole call. -/
def mergeStep_checked (t : ℚ) : List ChangeRegion → ChangeRegion → Option (List ChangeRegion)
  | [], change => some [change]
  | existing :: rest, change =>
    match calculate_overlap_checked change existing with
    | none => none
    | some ov =>
      if t < ov then
        some ({ existing with confidence := max existing.confidence change.confidence } :: rest)
      else (mergeStep_checked t rest change).map (fun l => existing :: l)

/-- `merge_overlapping_regions` with the division guarded. -/
def merge_overlapping_regions_checked (t : ℚ) (changes : List ChangeRegion) :
    Option (List ChangeRegion) :=
  if changes = [] then some []
  else (changes.insertionSort areaGE).foldlM (mergeStep_checked t) []

theorem calculate_overlap_conf_left (a b : ChangeRegion) (v : ℚ) :
    calculate_overlap { a with confidence := v } b = calculate_overlap a b := rfl

theorem calculate_overlap_conf_right (a b : ChangeRegion) (v : ℚ) :
    calculate_overlap a { b with confidence := v } = calculate_overlap a b := rfl

theorem area_conf (a : ChangeRegion) (v : ℚ) : area { a with confidence := v } = area a := rfl

/-- Complete case analysis of one `mergeStep` scan. -/
theorem mergeStep_cases (t : ℚ) :
    ∀ (acc : List ChangeRegion) (c : ChangeRegion),
      (∃ l1 e l2, acc = l1 ++ e :: l2 ∧ (∀ a ∈ l1, ¬ t < calculate_overlap c a) ∧
        t < calculate_overlap c e ∧
        mergeStep t acc c = l1 ++ { e with confidence := max e.confidence c.confidence } :: l2) ∨
      ((∀ a ∈ acc, ¬ t < calculate_overlap c a) ∧ mergeStep t acc c = acc ++ [c])
  | [], c => Or.inr ⟨by simp, rfl⟩
  | e :: rest, c => by
    by_cases h : t < calculate_overlap c e
    · exact Or.inl ⟨[], e, rest, rfl, by simp, h, by simp [mergeStep, h]⟩
    · rcases mergeStep_cases t rest c with ⟨l1, e', l2, hacc, hl1, he, heq⟩ | ⟨hall, heq⟩
      · refine Or.inl ⟨e :: l1, e', l2, by rw [hacc, List.cons_append], ?_, he, ?_⟩
        · intro a ha
          rcases List.mem_cons.mp ha with h' | h'
          · rw [h']; exact h
          · exact hl1 a h'
        · simp [mergeStep, h, heq]
      · refine Or.inr ⟨?_, by simp [mergeStep, h, heq]⟩
        intro a ha
        rcases List.mem_cons.mp ha with h' | h'
        · rw [h']; exact h
        · exact hall a h'

/-- Every pair of kept regions fails the merge test (later against earlier). -/
def NoOv (t : ℚ) (l : List ChangeRegion) : Prop :=
  l.Pairwise (fun a b => ¬ t < calculate_overlap b a)

/-- Kept regions are in descending-area order. -/
def SortedArea (l : List ChangeRegion) : Prop := l.Pairwise areaGE

theorem pairwise_replace {α : Type} {R : α → α → Prop} {l1 l2 : List α} {e e' : α}
    (h : List.Pairwise R (l1 ++ e :: l2))
    (h1 : ∀ x, R x e → R x e') (h2 : ∀ x, R e x → R e' x) :
    List.Pairwise R (l1 ++ e' :: l2) := by
  rw [List.pairwise_append] at h ⊢
  obtain ⟨hl1, hec, hcross⟩ := h
  rw [List.pairwise_cons] at hec ⊢
  refine ⟨hl1, ⟨fun b hb => h2 b (hec.1 b hb), hec.2⟩, ?_⟩
  intro a ha b hb
  rcases List.mem_cons.mp hb with hbe | hb2
  · rw [hbe]
    exact h1 a (hcross a ha e (List.mem_cons_self _ _))
  · exact hcross a ha b (List.mem_cons_of_mem _ hb2)

/-- One `mergeStep` preserves the three loop invariants: pairwise
non-overlap, descending-area order, and any lower bound on areas that also
bounds the incoming region. -/
theorem mergeStep_invariants (t : ℚ) (acc : List ChangeRegion) (c : ChangeRegion)
    (hN : NoOv t acc) (hS : SortedArea acc) (hdom : ∀ a ∈ acc, area c ≤ area a) :
    NoOv t (mergeStep t acc c) ∧ SortedArea (mergeStep t acc c) ∧
    (∀ K : ℤ, (∀ a ∈ acc, K ≤ area a) → K ≤ area c →
      ∀ a ∈ mergeStep t acc c, K ≤ area a) := by
  rcases mergeStep_cases t acc c with ⟨l1, e, l2, hacc, _, _, heq⟩ | ⟨hall, heq⟩
  · subst hacc
    rw [heq]
    refine ⟨?_, ?_, ?_⟩
    · exact pairwise_replace hN
        (fun x hx => by rwa [calculate_overlap_conf_right] at hx ⊢)
        (fun x hx => by rwa [calculate_overlap_conf_left] at hx ⊢)
    · exact pairwise_replace hS
        (fun x hx => by unfold areaGE at hx ⊢; rwa [area_conf])
        (fun x hx => by unfold areaGE at hx ⊢; rwa [area_conf])
    · intro K hK _ a ha
      rcases List.mem_append.mp ha with h1 | h1
      · exact hK a (List.mem_append_left _ h1)
      · rcases List.mem_cons.mp h1 with h2 | h2
        · rw [h2, area_conf]
          exact hK e (List.mem_append_right _ (List.mem_cons_self _ _))
        · exact hK a (List.mem_append_right _ (List.mem_cons_of_mem _ h2))
  · rw [heq]
    refine ⟨?_, ?_, ?_⟩
    · rw [NoOv, List.pairwise_append]
      exact ⟨hN, List.pairwise_singleton _ _,
        fun a ha b hb => by rw [List.mem_singleton.mp hb]; exact hall a ha⟩
    · rw [SortedArea, List.pairwise_append]
      exact ⟨hS, List.pairwise_singleton _ _,
        fun a ha b hb => by rw [List.mem_singleton.mp hb]; exact hdom a ha⟩
    · intro K hK hKc a ha
      rcases List.mem_append.mp ha with h1 | h1
      · exact hK a h1
      · rw [List.mem_singleton.mp h1]
        exact hKc

/-- Pass-1 invariant: folding `mergeStep` over a descending-area input
yields a pairwise-non-overlapping, descending-area accumulator. -/
theorem foldl_merge_invariants (t : ℚ) :
    ∀ (input acc : List ChangeRegion), SortedArea input → NoOv t acc → SortedArea acc →
      (∀ a ∈ acc, ∀ b ∈ input, area b ≤ area a) →
      NoOv t (input.foldl (mergeStep t) acc) ∧ SortedArea (input.foldl (mergeStep t) acc)
  | [], acc, _, hN, hS, _ => ⟨hN, hS⟩
  | c :: rest, acc, hSI, hN, hS, hdom => by
    rw [List.foldl_cons]
    have hSIc := List.pairwise_cons.mp hSI
    have hdomc : ∀ a ∈ acc, area c ≤ area a :=
      fun a ha => hdom a ha c (List.mem_cons_self _ _)
    obtain ⟨hN', hS', hK⟩ := mergeStep_invariants t acc c hN hS hdomc
    refine foldl_merge_invariants t rest (mergeStep t acc c) hSIc.2 hN' hS' ?_
    intro a ha b hb
    exact hK (area b) (fun a' ha' => hdom a' ha' b (List.mem_cons_of_mem _ hb))
      (hSIc.1 b hb) a ha

/-- A region overlapping nothing in the accumulator is appended unchanged. -/
theorem mergeStep_of_no_overlap (t : ℚ) (acc : List ChangeRegion) (c : ChangeRegion)
    (h : ∀ e ∈ acc, ¬ t < calculate_overlap c e) : mergeStep t acc c = acc ++ [c] := by
  rcases mergeStep_cases t acc c with ⟨l1, e, l2, hacc, _, he, _⟩ | ⟨_, heq⟩
  · exact absurd he (h e (by rw [hacc]; exact List.mem_append_right _ (List.mem_cons_self _ _)))
  · exact heq

/-- Pass 2 is the identity on a pairwise-non-overlapping list. -/
theorem foldl_merge_of_pairwise (t : ℚ) :
    ∀ (l acc : List ChangeRegion), NoOv t l →
      (∀ a ∈ acc, ∀ b ∈ l, ¬ t < calculate_overlap b a) →
      l.foldl (mergeStep t) acc = acc ++ l
  | [], acc, _, _ => by simp
  | c :: rest, acc, hN, hcross => by
    have hNc := List.pairwise_cons.mp hN
    rw [List.foldl_cons, mergeStep_of_no_overlap t acc c
      (fun e he => hcross e he c (List.mem_cons_self _ _))]
    rw [foldl_merge_of_pairwise t rest (acc ++ [c]) hNc.2 ?_]
    · simp
    · intro a ha b hb
      rcases List.mem_append.mp ha with h1 | h1
      · exact hcross a h1 b (List.mem_cons_of_mem _ hb)
      · rw [List.mem_singleton.mp h1]
        exact hNc.1 b hb

/-- `merge_overlapping_regions` is the identity on a pairwise-non-overlapping
descending-area list. -/
theorem merge_of_invariants (t : ℚ) (l : List ChangeRegion) (hN : NoOv t l)
    (hS : SortedArea l) : merge_overlapping_regions t l = l := by
  by_cases h : l = []
  · rw [h]
    rfl
  · unfold merge_overlapping_regions
    rw [if_neg h, List.Sorted.insertionSort_eq hS,
      foldl_merge_of_pairwise t l [] hN (by simp), List.nil_append]

end ImageComp

/-- C5: `merge_overlapping_regions` is idempotent — for every region list and
every overlap threshold, merging its own output again returns the output
unchanged (same regions, same confidences). -/
theorem c5_merge_overlapping_regions_idempotent (t : ℚ)
    (changes : List ImageComp.ChangeRegion) :
    ImageComp.merge_overlapping_regions t (ImageComp.merge_overlapping_regions t changes)
      = ImageComp.merge_overlapping_regions t changes := by
  by_cases h0 : changes = []
  · rw [h0]
    rfl
  · have hsorted : ImageComp.SortedArea (changes.insertionSort ImageComp.areaGE) :=
      List.sorted_insertionSort ImageComp.areaGE changes
    have hout : ImageComp.merge_overlapping_regions t changes
        = (changes.insertionSort ImageComp.areaGE).foldl (ImageComp.mergeStep t) [] := by
      unfold ImageComp.merge_overlapping_regions
      rw [if_neg h0]
    obtain ⟨hN, hS⟩ := ImageComp.foldl_merge_invariants t
      (changes.insertionSort ImageComp.areaGE) [] hsorted (List.Pairwise.nil)
      (List.Pairwise.nil) (by simp)
    rw [← hout] at hN hS
    exact ImageComp.merge_of_invariants t _ hN hS

namespace ImageComp

/-- Positive width and height, the implicit precondition of C9. -/
def PosDims (c : ChangeRegion) : Prop := 0 < c.width ∧ 0 < c.height

instance (c : ChangeRegion) : Decidable (PosDims c) :=
  inferInstanceAs (Decidable (0 < c.width ∧ 0 < c.height))

/-- All regions of a list have positive width and height. -/
def PosDimsAll (l : List ChangeRegion) : Prop := ∀ c ∈ l, PosDims c

instance (l : List ChangeRegion) : Decidable (PosDimsAll l) :=
  inferInstanceAs (Decidable (∀ c ∈ l, PosDims c))

/-- The divisor of `_calculate_overlap` is strictly positive on every pair of
regions from the list. -/
def MinAreaPos (l : List ChangeRegion) : Prop :=
  ∀ r1 ∈ l, ∀ r2 ∈ l, 0 < min (area r1) (area r2)

theorem minArea_pos {r1 r2 : ChangeRegion} (h1 : PosDims r1) (h2 : PosDims r2) :
    0 < min (area r1) (area r2) :=
  lt_min (mul_pos h1.1 h1.2) (mul_pos h2.1 h2.2)

/-- With positive dimensions the guarded overlap computation never fails and
agrees with the total one. -/
theorem calculate_overlap_checked_eq {r1 r2 : ChangeRegion} (h1 : PosDims r1)
    (h2 : PosDims r2) :
    calculate_overlap_checked r1 r2 = some (calculate_overlap r1 r2) := by
  have hmin : ¬ min (r1.width * r1.height) (r2.width * r2.height) = 0 :=
    ne_of_gt (minArea_pos h1 h2)
  unfold calculate_overlap_checked calculate_overlap
  by_cases hg : min (r1.x + r1.width) (r2.x + r2.width) < max r1.x r2.x ∨
      min (r1.y + r1.height) (r2.y + r2.height) < max r1.y r2.y
  · rw [if_pos hg, if_pos hg]
  · rw [if_neg hg, if_neg hg, if_neg hmin]

theorem posDims_mergeStep (t : ℚ) :
    ∀ (acc : List ChangeRegion) (c : ChangeRegion), (∀ e ∈ acc, PosDims e) → PosDims c →
      ∀ a ∈ mergeStep t acc c, PosDims a
  | [], c, _, hc => by
    intro a ha
    rw [mergeStep] at ha
    rw [List.mem_singleton.mp ha]
    exact hc
  | e :: rest, c, hacc, hc => by
    intro a ha
    rw [mergeStep] at ha
    by_cases h : t < calculate_overlap c e
    · rw [if_pos h] at ha
      rcases List.mem_cons.mp ha with h' | h'
      · rw [h']
        exact hacc e (List.mem_cons_self _ _)
      · exact hacc a (List.mem_cons_of_mem _ h')
    · rw [if_neg h] at ha
      rcases List.mem_cons.mp ha with h' | h'
      · rw [h']
        exact hacc e (List.mem_cons_self _ _)
      · exact posDims_mergeStep t rest c
          (fun x hx => hacc x (List.mem_cons_of_mem _ hx)) hc a h'

/-- With positive dimensions the guarded scan never fails and agrees with the
total one. -/
theorem mergeStep_checked_eq (t : ℚ) :
    ∀ (acc : List ChangeRegion) (c : ChangeRegion), (∀ e ∈ acc, PosDims e) → PosDims c →
      mergeStep_checked t acc c = some (mergeStep t acc c)
  | [], _, _, _ => rfl
  | e :: rest, c, hacc, hc => by
    rw [mergeStep_checked, mergeStep,
      calculate_overlap_checked_eq hc (hacc e (List.mem_cons_self _ _))]
    by_cases h : t < calculate_overlap c e
    · simp [h]
    · rw [mergeStep_checked_eq t rest c (fun x hx => hacc x (List.mem_cons_of_mem _ hx)) hc]
      simp [h]

/-- With positive dimensions the guarded fold never fails and agrees with the
total one. -/
theorem foldlM_merge_checked_eq (t : ℚ) :
    ∀ (input acc : List ChangeRegion), (∀ e ∈ acc, PosDims e) → (∀ b ∈ input, PosDims b) →
      input.foldlM (mergeStep_checked t) acc = some (input.foldl (mergeStep t) acc)
  | [], _, _, _ => rfl
  | c :: rest, acc, hacc, hin => by
    rw [List.foldlM_cons, mergeStep_checked_eq t acc c hacc (hin c (List.mem_cons_self _ _))]
    rw [Option.bind_eq_bind, Option.some_bind]
    rw [List.foldl_cons]
    exact foldlM_merge_checked_eq t rest (mergeStep t acc c)
      (posDims_mergeStep t acc c hacc (hin c (List.mem_cons_self _ _)))
      (fun b hb => hin b (List.mem_cons_of_mem _ hb))

end ImageComp

/-- C9: when every region has strictly positive width and height,
`_calculate_overlap`'s divisor `min(area1, area2)` is strictly positive on
every pair — so the division is never by zero — and
`merge_overlapping_regions` returns normally for every overlap threshold
(the guarded model equals the total one). -/
theorem c9_merge_total_on_positive_regions (t : ℚ) (changes : List ImageComp.ChangeRegion)
    (hpos : ImageComp.PosDimsAll changes) :
    ImageComp.MinAreaPos changes ∧
    ImageComp.merge_overlapping_regions_checked t changes
      = some (ImageComp.merge_overlapping_regions t changes) := by
  constructor
  · intro r1 h1 r2 h2
    exact ImageComp.minArea_pos (hpos r1 h1) (hpos r2 h2)
  · unfold ImageComp.merge_overlapping_regions_checked ImageComp.merge_overlapping_regions
    by_cases h0 : changes = []
    · rw [if_pos h0, if_pos h0]
    · rw [if_neg h0, if_neg h0]
      exact ImageComp.foldlM_merge_checked_eq t _ [] (by simp)
        (fun b hb => hpos b ((List.mem_insertionSort ImageComp.areaGE).mp hb))

/-- Witness for C9 on a concrete positive-dimension region list. -/
theorem c9_merge_total_on_positive_regions_witness :
    ImageComp.PosDimsAll
      [⟨0, 0, 2, 2, 1/2, "zone1", "addition"⟩, ⟨1, 1, 1, 1, 9/10, "zone1", "removal"⟩] ∧
    (ImageComp.MinAreaPos
      [⟨0, 0, 2, 2, 1/2, "zone1", "addition"⟩, ⟨1, 1, 1, 1, 9/10, "zone1", "removal"⟩] ∧
     ImageComp.merge_overlapping_regions_checked (1/2)
        [⟨0, 0, 2, 2, 1/2, "zone1", "addition"⟩, ⟨1, 1, 1, 1, 9/10, "zone1", "removal"⟩]
       = some (ImageComp.merge_overlapping_regions (1/2)
        [⟨0, 0, 2, 2, 1/2, "zone1", "addition"⟩, ⟨1, 1, 1, 1, 9/10, "zone1", "removal"⟩])) :=
  ⟨by decide,
   c9_merge_total_on_positive_regions (1/2)
     [⟨0, 0, 2, 2, 1/2, "zone1", "addition"⟩, ⟨1, 1, 1, 1, 9/10, "zone1", "removal"⟩]
     (by decide)⟩

/-! ## Image comparator: `compare_images`

The OpenCV pipeline of `compare_images` is embedded with the simple pixel
operations (`cv2.absdiff`, `cv2.threshold` with `THRESH_BINARY`) written
out, and the remaining library calls (`cv2.cvtColor`, `cv2.GaussianBlur`,
`cv2.morphologyEx`, `cv2.findContours`, `cv2.contourArea`,
`cv2.boundingRect`, `cv2.resize`) taken as parameters in `CVPrims`, since
they are external library code.  `np.mean` over a rectangle slice becomes
`roiMean`.  The visualization output (drawing calls on a copy of the after
frame) carries no information about the returned region list and is not
modelled. -/

namespace ImageComp

/-- A colour frame: height, width, and a BGR pixel function. -/
@[ext]
structure Frame where
  h : ℕ
  w : ℕ
  px : ℕ → ℕ → ℕ × ℕ × ℕ

/-- A single-channel image. -/
@[ext]
structure Gray where
  h : ℕ
  w : ℕ
  px : ℕ → ℕ → ℕ

/-- `cv2.absdiff`: pointwise absolute difference. -/
def absdiff (a b : Gray) : Gray :=
  ⟨a.h, a.w, fun i j => Nat.dist (a.px i j) (b.px i j)⟩

/-- `cv2.threshold(·, t, maxval, cv2.THRESH_BINARY)`: `maxval` where the
pixel exceeds `t`, else 0. -/
def thresholdBinary (t maxval : ℕ) (g : Gray) : Gray :=
  ⟨g.h, g.w, fun i j => if t < g.px i j then maxval else 0⟩

/-- The external OpenCV primitives used by `compare_images`, over an
abstract contour type. -/
structure CVPrims (Contour : Type) where
  cvtColorGray : Frame → Gray
  gaussianBlur : ℕ → Gray → Gray
  morphologyClose : Gray → Gray
  morphologyOpen : Gray → Gray
  findContours : Gray → List Contour
  contourArea : Contour → ℚ
  boundingRect : Contour → ℕ × ℕ × ℕ × ℕ
  resize : ℕ → ℕ → Frame → Frame

/-- `np.mean` of a gray image over the rectangle `[y, y+h) × [x, x+w)`
(`ℚ` division; the empty rectangle gives `0/0 = 0`). -/
def roiMean (g : Gray) (x y w h : ℕ) : ℚ :=
  (((List.range h).map (fun i =>
      (((List.range w).map (fun j => (g.px (y + i) (x + j) : ℚ)))).sum)).sum) / ((w * h : ℕ) : ℚ)

/-- `ImageComparator.compare_images`, returning the change-region list. -/
def compare_images {C : Type} (P : CVPrims C) (diff_threshold : ℕ) (min_contour_area : ℚ)
    (blur_kernel_size : ℕ) (before_image after_image : Frame) (zone : String) :
    List ChangeRegion :=
  let after_image :=
    if before_image.h = after_image.h ∧ before_image.w = after_image.w then after_image
    else P.resize before_image.h before_image.w after_image
  let gray_before := P.cvtColorGray before_image
  let gray_after := P.cvtColorGray after_image
  let blur_before := P.gaussianBlur blur_kernel_size gray_before
  let blur_after := P.gaussianBlur blur_kernel_size gray_after
  let diff := absdiff blur_before blur_after
  let thresh := P.morphologyOpen (P.morphologyClose (thresholdBinary diff_threshold 255 diff))
  (P.findContours thresh).filterMap (fun contour =>
    if P.contourArea contour < min_contour_area then none
    else
      let r := P.boundingRect contour
      let before_brightness := roiMean gray_before r.1 r.2.1 r.2.2.1 r.2.2.2
      let after_brightness := roiMean gray_after r.1 r.2.1 r.2.2.1 r.2.2.2
      some ⟨(r.1 : ℤ), (r.2.1 : ℤ), (r.2.2.1 : ℤ), (r.2.2.2 : ℤ),
        min (|after_brightness - before_brightness| / 255) 1, zone,
        if before_brightness < after_brightness then "addition" else "removal"⟩)

/-- What C7 asserts of every produced region, relative to the two grayscale
frames the rectangle means are taken from. -/
def RegionSpec (gb ga : Gray) (cr : ChangeRegion) : Prop :=
  0 ≤ cr.confidence ∧ cr.confidence ≤ 1 ∧
  (cr.change_type = "addition" ∨ cr.change_type = "removal") ∧
  ∃ x y w h : ℕ, cr.x = (x : ℤ) ∧ cr.y = (y : ℤ) ∧ cr.width = (w : ℤ) ∧ cr.height = (h : ℤ) ∧
    cr.confidence = min (|roiMean ga x y w h - roiMean gb x y w h| / 255) 1 ∧
    (cr.change_type = "addition" ↔ roiMean gb x y w h < roiMean ga x y w h)

end ImageComp

/-- C6: for every pair of before/after frames with the same dimensions and
every pixel equal, `compare_images` returns an empty change-region list
(for any thresholds, any blur kernel, and any library primitives whose
contour extraction finds no contours in an all-zero mask). -/
theorem c6_identical_frames_no_changes {C : Type} (P : ImageComp.CVPrims C)
    (diff_threshold : ℕ) (min_contour_area : ℚ) (blur_kernel_size : ℕ)
    (before after : ImageComp.Frame) (zone : String)
    (hdim : before.h = after.h ∧ before.w = after.w)
    (hpx : ∀ i j, before.px i j = after.px i j)
    (hfc : ∀ g : ImageComp.Gray, (∀ i j, g.px i j = 0) →
      P.findContours (P.morphologyOpen (P.morphologyClose g)) = []) :
    ImageComp.compare_images P diff_threshold min_contour_area blur_kernel_size
      before after zone = [] := by
  have heq : after = before :=
    ImageComp.Frame.ext hdim.1.symm hdim.2.symm
      (funext fun i => funext fun j => (hpx i j).symm)
  rw [heq]
  unfold ImageComp.compare_images
  simp only [and_self, if_true, eq_self_iff_true]
  rw [hfc (ImageComp.thresholdBinary diff_threshold 255
      (ImageComp.absdiff
        (P.gaussianBlur blur_kernel_size (P.cvtColorGray before))
        (P.gaussianBlur blur_kernel_size (P.cvtColorGray before))))
    (fun i j => by simp [ImageComp.thresholdBinary, ImageComp.absdiff, Nat.dist_self])]
  rfl

/-- Witness for C6: two identical all-black 2×2 frames with concrete
primitives produce no change regions. -/
theorem c6_identical_frames_no_changes_witness :
    ((⟨2, 2, fun _ _ => (0, 0, 0)⟩ : ImageComp.Frame).h
        = (⟨2, 2, fun _ _ => (0, 0, 0)⟩ : ImageComp.Frame).h ∧
      (⟨2, 2, fun _ _ => (0, 0, 0)⟩ : ImageComp.Frame).w
        = (⟨2, 2, fun _ _ => (0, 0, 0)⟩ : ImageComp.Frame).w) ∧
    ImageComp.compare_images
      (⟨fun f => ⟨f.h, f.w, fun _ _ => 0⟩, fun _ g => g, id, id, fun _ => [], fun _ => 600,
        fun _ => (0, 0, 1, 1), fun _ _ f => f⟩ : ImageComp.CVPrims Unit)
      30 500 21 ⟨2, 2, fun _ _ => (0, 0, 0)⟩ ⟨2, 2, fun _ _ => (0, 0, 0)⟩ "zone1" = [] :=
  ⟨⟨rfl, rfl⟩,
   c6_identical_frames_no_changes
     (⟨fun f => ⟨f.h, f.w, fun _ _ => 0⟩, fun _ g => g, id, id, fun _ => [], fun _ => 600,
       fun _ => (0, 0, 1, 1), fun _ _ f => f⟩ : ImageComp.CVPrims Unit)
     30 500 21 ⟨2, 2, fun _ _ => (0, 0, 0)⟩ ⟨2, 2, fun _ _ => (0, 0, 0)⟩ "zone1"
     ⟨rfl, rfl⟩ (fun _ _ => rfl) (fun _ _ => rfl)⟩

/-- C7: every `ChangeRegion` produced by `compare_images` has confidence
`min(|mean after-intensity − mean before-intensity inside its bounding
rectangle| / 255, 1)` — which lies in `[0, 1]` — and `change_type`
`"addition"` exactly when the after rectangle's mean is brighter than the
before one, `"removal"` otherwise. -/
theorem c7_region_confidence_and_type {C : Type} (P : ImageComp.CVPrims C)
    (diff_threshold : ℕ) (min_contour_area : ℚ) (blur_kernel_size : ℕ)
    (before after : ImageComp.Frame) (zone : String) :
    ∀ cr ∈ ImageComp.compare_images P diff_threshold min_contour_area blur_kernel_size
        before after zone,
      ImageComp.RegionSpec (P.cvtColorGray before)
        (P.cvtColorGray (if before.h = after.h ∧ before.w = after.w then after
          else P.resize before.h before.w after)) cr := by
  intro cr hcr
  unfold ImageComp.compare_images at hcr
  rw [List.mem_filterMap] at hcr
  obtain ⟨contour, _, hf⟩ := hcr
  by_cases harea : P.contourArea contour < min_contour_area
  · rw [if_pos harea] at hf
    exact absurd hf (by simp)
  · rw [if_neg harea] at hf
    set gb := P.cvtColorGray before with hgb
    set ga := P.cvtColorGray (if before.h = after.h ∧ before.w = after.w then after
      else P.resize before.h before.w after) with hga
    rcases hbr : P.boundingRect contour with ⟨x, y, w, h⟩
    rw [hbr] at hf
    simp only [Option.some.injEq] at hf
    subst hf
    constructor
    · exact le_min (div_nonneg (abs_nonneg _) (by norm_num)) zero_le_one
    constructor
    · exact min_le_right _ _
    constructor
    · by_cases hlt : ImageComp.roiMean gb x y w h < ImageComp.roiMean ga x y w h
      · left
        simp [hlt]
      · right
        simp [hlt]
    · refine ⟨x, y, w, h, rfl, rfl, rfl, rfl, rfl, ?_⟩
      by_cases hlt : ImageComp.roiMean gb x y w h < ImageComp.roiMean ga x y w h
      · simp [hlt]
      · simp only [if_neg hlt]
        constructor
        · intro he
          exact absurd he (by decide)
        · intro hc
          exact absurd hc hlt

/-- Witness for C7: with concrete primitives yielding one surviving contour
over identical all-black frames, the produced region has confidence 0 and
change type `"removal"`, and satisfies `RegionSpec`. -/
theorem c7_region_confidence_and_type_witness :
    ImageComp.compare_images
        (⟨fun f => ⟨f.h, f.w, fun _ _ => 0⟩, fun _ g => g, id, id, fun _ => [()], fun _ => 600,
          fun _ => (0, 0, 1, 1), fun _ _ f => f⟩ : ImageComp.CVPrims Unit)
        30 500 21 ⟨2, 2, fun _ _ => (0, 0, 0)⟩ ⟨2, 2, fun _ _ => (0, 0, 0)⟩ "zone1"
      = [⟨0, 0, 1, 1, 0, "zone1", "removal"⟩] ∧
    ImageComp.RegionSpec
      ((⟨fun f => ⟨f.h, f.w, fun _ _ => 0⟩, fun _ g => g, id, id, fun _ => [()], fun _ => 600,
          fun _ => (0, 0, 1, 1), fun _ _ f => f⟩ : ImageComp.CVPrims Unit).cvtColorGray
        ⟨2, 2, fun _ _ => (0, 0, 0)⟩)
      ((⟨fun f => ⟨f.h, f.w, fun _ _ => 0⟩, fun _ g => g, id, id, fun _ => [()], fun _ => 600,
          fun _ => (0, 0, 1, 1), fun _ _ f => f⟩ : ImageComp.CVPrims Unit).cvtColorGray
        (if (⟨2, 2, fun _ _ => (0, 0, 0)⟩ : ImageComp.Frame).h
              = (⟨2, 2, fun _ _ => (0, 0, 0)⟩ : ImageComp.Frame).h ∧
            (⟨2, 2, fun _ _ => (0, 0, 0)⟩ : ImageComp.Frame).w
              = (⟨2, 2, fun _ _ => (0, 0, 0)⟩ : ImageComp.Frame).w
          then (⟨2, 2, fun _ _ => (0, 0, 0)⟩ : ImageComp.Frame)
          else (⟨fun f => ⟨f.h, f.w, fun _ _ => 0⟩, fun _ g => g, id, id, fun _ => [()],
              fun _ => 600, fun _ => (0, 0, 1, 1), fun _ _ f => f⟩ :
                ImageComp.CVPrims Unit).resize
            (⟨2, 2, fun _ _ => (0, 0, 0)⟩ : ImageComp.Frame).h
            (⟨2, 2, fun _ _ => (0, 0, 0)⟩ : ImageComp.Frame).w
            ⟨2, 2, fun _ _ => (0, 0, 0)⟩))
      ⟨0, 0, 1, 1, 0, "zone1", "removal"⟩ := by
  have hlist : ImageComp.compare_images
      (⟨fun f => ⟨f.h, f.w, fun _ _ => 0⟩, fun _ g => g, id, id, fun _ => [()], fun _ => 600,
        fun _ => (0, 0, 1, 1), fun _ _ f => f⟩ : ImageComp.CVPrims Unit)
      30 500 21 ⟨2, 2, fun _ _ => (0, 0, 0)⟩ ⟨2, 2, fun _ _ => (0, 0, 0)⟩ "zone1"
      = [⟨0, 0, 1, 1, 0, "zone1", "removal"⟩] := by
    unfold ImageComp.compare_images
    norm_num [ImageComp.roiMean]
    rfl
  refine ⟨hlist, ?_⟩
  exact c7_region_confidence_and_type
    (⟨fun f => ⟨f.h, f.w, fun _ _ => 0⟩, fun _ g => g, id, id, fun _ => [()], fun _ => 600,
      fun _ => (0, 0, 1, 1), fun _ _ f => f⟩ : ImageComp.CVPrims Unit)
    30 500 21 ⟨2, 2, fun _ _ => (0, 0, 0)⟩ ⟨2, 2, fun _ _ => (0, 0, 0)⟩ "zone1"
    ⟨0, 0, 1, 1, 0, "zone1", "removal"⟩
    (by rw [hlist]; exact List.mem_singleton.mpr rfl)

/-! ## Facial recognition (`src/ai/facial_recognition.py`)

The `User` dataclass and the matching logic of `recognize_user` /
`enroll_user` are embedded from the point where the external
`face_recognition` library has produced face locations and encodings for
the image; the library's `face_distance` (Euclidean distance between
encoding vectors) is the parameter `d`.  `known_users` is the dict keyed
by user id (insertion-ordered).  Pickle persistence (`save_encodings`) is
file I/O and not modelled. -/

namespace FacialRecognition

/-- A face encoding vector; only ever fed back to the distance function. -/
abbrev Encoding := List ℚ

/-- `preferences` dict payload. -/
abbrev Prefs := List (String × String)

/-- The `User` dataclass. -/
structure User where
  id : ℤ
  name : String
  face_encodings : List Encoding
  preferences : Prefs
  last_seen : ℕ
  times_recognized : ℕ
deriving DecidableEq

/-- `self.known_users`. -/
abbrev Store := List (ℤ × User)

/-- The stat update performed on the matched user before returning. -/
def bumpStats (now : ℕ) (u : User) : User :=
  { u with last_seen := now, times_recognized := u.times_recognized + 1 }

/-- `FacialRecognitionManager.recognize_user`, from the point where the
first detected face's encoding `test` is in hand; `tol` is
`self.tolerance` (default 0.6), `now` models `datetime.now()`. -/
def recognize_user (d : Encoding → Encoding → ℚ) (tol : ℚ) (now : ℕ)
    (known_users : Store) (test : Encoding) : Option (User × ℚ) :=
  if known_users = [] then none
  else
    let best := known_users.foldl (fun acc p =>
      p.2.face_encodings.foldl (fun acc enc =>
        if d enc test < acc.2 ∧ d enc test ≤ tol then (some p.2, d enc test) else acc) acc)
      ((none : Option User), (1 : ℚ))
    match best.1 with
    | some u => some (bumpStats now u, 1 - best.2)
    | none => none

/-- `FacialRecognitionManager.enroll_user`, from the point where the
external detector returned `face_locations` and the encoder
`face_encodings`; `preferences.getD []` models `preferences or {}`. -/
def enroll_user (known_users : Store) (user_id : ℤ) (name : String)
    (face_locations : List (ℕ × ℕ × ℕ × ℕ)) (face_encodings : List Encoding)
    (preferences : Option Prefs) (now : ℕ) : Bool × Store :=
  if face_locations.length = 0 then (false, known_users)
  else
    match face_encodings with
    | [] => (false, known_users)
    | e :: _ =>
      (true, dictInsert known_users user_id
        { id := user_id, name := name, face_encodings := [e],
          preferences := preferences.getD [], last_seen := now, times_recognized := 0 })

/-- The scan of `recognize_user` flattened to (candidate user, distance)
pairs in scan order. -/
def distPairs (d : Encoding → Encoding → ℚ) (known_users : Store) (test : Encoding) :
    List (User × ℚ) :=
  known_users.flatMap (fun p => p.2.face_encodings.map (fun enc => (p.2, d enc test)))

/-- One comparison of the scan. -/
def scanStep (tol : ℚ) (acc : Option User × ℚ) (pr : User × ℚ) : Option User × ℚ :=
  if pr.2 < acc.2 ∧ pr.2 ≤ tol then (some pr.1, pr.2) else acc

/-- The nested fold of `recognize_user` equals the flat scan over
`distPairs`. -/
theorem recognize_fold_eq (d : Encoding → Encoding → ℚ) (tol : ℚ) (test : Encoding) :
    ∀ (users : Store) (acc : Option User × ℚ),
      users.foldl (fun acc p =>
          p.2.face_encodings.foldl (fun acc enc =>
            if d enc test < acc.2 ∧ d enc test ≤ tol then (some p.2, d enc test) else acc) acc)
          acc
        = (distPairs d users test).foldl (scanStep tol) acc
  | [], _ => rfl
  | p :: ps, acc => by
    rw [List.foldl_cons,
      show distPairs d (p :: ps) test
        = p.2.face_encodings.map (fun enc => (p.2, d enc test)) ++ distPairs d ps test from
        List.flatMap_cons .., List.foldl_append, List.foldl_map]
    exact recognize_fold_eq d tol test ps _

/-- Characterization of the scan from the initial state `(none, 1)`, for a
tolerance below the initial best distance 1. -/
theorem scan_spec (tol : ℚ) (htol : tol < 1) (l : List (User × ℚ)) :
    (l.foldl (scanStep tol) (none, 1) = (none, 1) ∧ ∀ pr ∈ l, ¬ pr.2 ≤ tol) ∨
    (∃ u m, l.foldl (scanStep tol) (none, 1) = (some u, m) ∧ (u, m) ∈ l ∧ m ≤ tol ∧
      ∀ pr ∈ l, pr.2 ≤ tol → m ≤ pr.2) := by
  induction l using List.reverseRecOn with
  | nil => exact Or.inl ⟨rfl, by simp⟩
  | append_singleton l p ih =>
    rw [List.foldl_append, List.foldl_cons, List.foldl_nil]
    rcases ih with ⟨heq, hall⟩ | ⟨u, m, heq, hmem, hm, hmin⟩
    · rw [heq]
      unfold scanStep
      by_cases hc : p.2 < (1 : ℚ) ∧ p.2 ≤ tol
      · rw [if_pos hc]
        refine Or.inr ⟨p.1, p.2, rfl, by simp, hc.2, ?_⟩
        intro pr hpr hprtol
        rcases List.mem_append.mp hpr with h1 | h1
        · exact absurd hprtol (hall pr h1)
        · rw [List.mem_singleton.mp h1]
      · rw [if_neg hc]
        refine Or.inl ⟨rfl, ?_⟩
        intro pr hpr
        rcases List.mem_append.mp hpr with h1 | h1
        · exact hall pr h1
        · rw [List.mem_singleton.mp h1]
          intro hptol
          exact hc ⟨lt_of_le_of_lt hptol htol, hptol⟩
    · rw [heq]
      unfold scanStep
      by_cases hc : p.2 < m ∧ p.2 ≤ tol
      · rw [if_pos hc]
        refine Or.inr ⟨p.1, p.2, rfl, List.mem_append_right _ (List.mem_singleton.mpr rfl),
          hc.2, ?_⟩
        intro pr hpr hprtol
        rcases List.mem_append.mp hpr with h1 | h1
        · exact le_of_lt (lt_of_lt_of_le hc.1 (hmin pr h1 hprtol))
        · rw [List.mem_singleton.mp h1]
      · rw [if_neg hc]
        refine Or.inr ⟨u, m, rfl, List.mem_append_left _ hmem, hm, ?_⟩
        intro pr hpr hprtol
        rcases List.mem_append.mp hpr with h1 | h1
        · exact hmin pr h1 hprtol
        · rw [List.mem_singleton.mp h1]
          rw [List.mem_singleton.mp h1] at hprtol
          by_contra hlt
          exact hc ⟨lt_of_not_le hlt, hprtol⟩

/-- Membership in `distPairs` in terms of the store. -/
theorem mem_distPairs {d : Encoding → Encoding → ℚ} {users : Store} {test : Encoding}
    {u : User} {m : ℚ} :
    (u, m) ∈ distPairs d users test ↔
      ∃ p ∈ users, p.2 = u ∧ ∃ enc ∈ u.face_encodings, d enc test = m := by
  unfold distPairs
  rw [List.mem_flatMap]
  constructor
  · rintro ⟨p, hp, hm⟩
    rw [List.mem_map] at hm
    obtain ⟨enc, henc, heq⟩ := hm
    rw [Prod.mk.injEq] at heq
    exact ⟨p, hp, heq.1, enc, heq.1 ▸ henc, heq.2⟩
  · rintro ⟨p, hp, hpu, enc, henc, hd⟩
    exact ⟨p, hp, List.mem_map.mpr ⟨enc, by rw [hpu]; exact henc, by rw [hpu, hd]⟩⟩

/-- C4's property of `recognize_user`: a match is returned iff some stored
encoding of some enrolled user is within tolerance of the test encoding;
the returned user attains the smallest such distance, and the confidence
is `1 − bestDistance`; otherwise the result is `none`. -/
def MatchProp (d : Encoding → Encoding → ℚ) (tol : ℚ) (now : ℕ) (known_users : Store)
    (test : Encoding) : Prop :=
  ((recognize_user d tol now known_users test).isSome ↔
    ∃ p ∈ known_users, ∃ enc ∈ p.2.face_encodings, d enc test ≤ tol) ∧
  (∀ u c, recognize_user d tol now known_users test = some (u, c) →
    ∃ u0 m, u = bumpStats now u0 ∧ c = 1 - m ∧
      (∃ p ∈ known_users, p.2 = u0) ∧ (∃ enc ∈ u0.face_encodings, d enc test = m) ∧
      m ≤ tol ∧
      (∀ p ∈ known_users, ∀ enc ∈ p.2.face_encodings, d enc test ≤ tol → m ≤ d enc test))

end FacialRecognition

/-- C4: for every store and test encoding (the first detected face's
encoding), with the tolerance below the initial best distance 1.0 — which
covers the default 0.6 — `recognize_user` returns a match iff some stored
encoding of some enrolled user is within distance tolerance; the matched
user attains the smallest such distance `m`, the confidence is `1 − m`,
and with no encoding within tolerance the result is `none`. -/
theorem c4_recognize_user_match_characterization
    (d : FacialRecognition.Encoding → FacialRecognition.Encoding → ℚ) (tol : ℚ) (now : ℕ)
    (users : FacialRecognition.Store) (test : FacialRecognition.Encoding)
    (htol : tol < 1) :
    FacialRecognition.MatchProp d tol now users test := by
  unfold FacialRecognition.MatchProp
  by_cases hemp : users = []
  · subst hemp
    constructor
    · simp [FacialRecognition.recognize_user]
    · intro u c hres
      simp [FacialRecognition.recognize_user] at hres
  · rcases FacialRecognition.scan_spec tol htol
        (FacialRecognition.distPairs d users test) with
      ⟨heq, hall⟩ | ⟨u0, m, heq, hmem, hm, hmin⟩
    · have hres : FacialRecognition.recognize_user d tol now users test = none := by
        simp only [FacialRecognition.recognize_user, if_neg hemp]
        rw [FacialRecognition.recognize_fold_eq d tol test users, heq]
      constructor
      · rw [hres]
        simp only [Option.isSome_none, Bool.false_eq_true, false_iff]
        rintro ⟨p, hp, enc, henc, hd⟩
        exact hall (p.2, d enc test)
          (FacialRecognition.mem_distPairs.mpr ⟨p, hp, rfl, enc, henc, rfl⟩) hd
      · intro u c hc
        rw [hres] at hc
        exact absurd hc (by simp)
    · have hres : FacialRecognition.recognize_user d tol now users test
          = some (FacialRecognition.bumpStats now u0, 1 - m) := by
        simp only [FacialRecognition.recognize_user, if_neg hemp]
        rw [FacialRecognition.recognize_fold_eq d tol test users, heq]
      obtain ⟨p0, hp0, hp0u, enc0, henc0, hd0⟩ := FacialRecognition.mem_distPairs.mp hmem
      constructor
      · rw [hres]
        simp only [Option.isSome_some, true_iff]
        refine ⟨p0, hp0, enc0, ?_, ?_⟩
        · rw [hp0u]
          exact henc0
        · rw [hd0]
          exact hm
      · intro u c hc
        rw [hres, Option.some.injEq, Prod.mk.injEq] at hc
        refine ⟨u0, m, hc.1.symm, hc.2.symm, ⟨p0, hp0, hp0u⟩, ⟨enc0, henc0, hd0⟩, hm, ?_⟩
        intro p hp enc henc hdtol
        exact hmin (p.2, d enc test)
          (FacialRecognition.mem_distPairs.mpr ⟨p, hp, rfl, enc, henc, rfl⟩) hdtol

/-- Witness for C4: a one-user store whose single encoding is at distance 0
from the test encoding, with the default tolerance 0.6. -/
theorem c4_recognize_user_match_characterization_witness :
    ((3 : ℚ)/5 < 1) ∧
    FacialRecognition.MatchProp (fun _ _ => 0) (3/5) 5
      [(1, ⟨1, "alice", [[1/2, 1/4]], [], 0, 0⟩)] [1/2, 1/4] :=
  ⟨by norm_num,
   c4_recognize_user_match_characterization (fun _ _ => 0) (3/5) 5
     [(1, ⟨1, "alice", [[1/2, 1/4]], [], 0, 0⟩)] [1/2, 1/4] (by norm_num)⟩

namespace FacialRecognition

/-- The profile stored for `uid` exists and holds at least one encoding. -/
def EnrolledHasEncoding (store : Store) (uid : ℤ) : Prop :=
  ∃ u, dictLookup store uid = some u ∧ 1 ≤ u.face_encodings.length

end FacialRecognition

/-- C8: with zero detected faces, `enroll_user` returns `false` and leaves
the store unchanged; with at least one detected face and a successful
encoding, it returns `true` using the first encoding, and the stored
profile for that user id holds at least one face encoding. -/
theorem c8_enroll_user_faces (store : FacialRecognition.Store) (user_id : ℤ) (name : String)
    (locs : List (ℕ × ℕ × ℕ × ℕ)) (encs : List FacialRecognition.Encoding)
    (prefs : Option FacialRecognition.Prefs) (now : ℕ) :
    (locs = [] →
      FacialRecognition.enroll_user store user_id name locs encs prefs now = (false, store)) ∧
    (locs ≠ [] → ∀ e rest, encs = e :: rest →
      (FacialRecognition.enroll_user store user_id name locs encs prefs now).1 = true ∧
      dictLookup (FacialRecognition.enroll_user store user_id name locs encs prefs now).2
          user_id
        = some ⟨user_id, name, [e], prefs.getD [], now, 0⟩ ∧
      FacialRecognition.EnrolledHasEncoding
        (FacialRecognition.enroll_user store user_id name locs encs prefs now).2 user_id) := by
  constructor
  · intro hl
    subst hl
    rfl
  · intro hl e rest hencs
    subst hencs
    have hlen : ¬ locs.length = 0 := fun h => hl (List.length_eq_zero.mp h)
    refine ⟨?_, ?_, ?_⟩
    · simp only [FacialRecognition.enroll_user, if_neg hlen]
    · simp only [FacialRecognition.enroll_user, if_neg hlen]
      exact dictLookup_insert_self store user_id _
    · simp only [FacialRecognition.enroll_user, if_neg hlen]
      exact ⟨_, dictLookup_insert_self store user_id _, by simp⟩

/-- Witness for C8: enrolling with one detected face and one encoding
succeeds and stores an encoding; enrolling with zero faces fails and
leaves the empty store empty. -/
theorem c8_enroll_user_faces_witness :
    ([((0 : ℕ), (10 : ℕ), (10 : ℕ), (0 : ℕ))] ≠ ([] : List (ℕ × ℕ × ℕ × ℕ))) ∧
    (FacialRecognition.enroll_user [] 1 "alice" [(0, 10, 10, 0)] [[1/2]] none 0).1 = true ∧
    dictLookup (FacialRecognition.enroll_user [] 1 "alice" [(0, 10, 10, 0)] [[1/2]] none 0).2 1
      = some ⟨1, "alice", [[1/2]], (none : Option FacialRecognition.Prefs).getD [], 0, 0⟩ ∧
    FacialRecognition.EnrolledHasEncoding
      (FacialRecognition.enroll_user [] 1 "alice" [(0, 10, 10, 0)] [[1/2]] none 0).2 1 ∧
    FacialRecognition.enroll_user [] 1 "alice" [] [] none 0
      = (false, ([] : FacialRecognition.Store)) := by
  have h := (c8_enroll_user_faces [] 1 "alice" [(0, 10, 10, 0)] [[1/2]] none 0).2
    (by decide) [1/2] [] rfl
  exact ⟨by decide, h.1, h.2.1, h.2.2,
    (c8_enroll_user_faces [] 1 "alice" [] [] none 0).1 rfl⟩
